import Mathlib

/-!
# Verification of the SCMEFitting parameter-fitting engine

This file gives a shallow embedding of the core of the `scme_fitting`
package and proves the testable properties stated in its design
specification.

Embedded components:

* the nested⇄flat parameter transform (`flatten_dict` / `unflatten_dict`
  from the `pydictnest` dependency, modelled from the spec);
* `Fitter.fit_scipy` (`src/scme_fitting/fitter.py`), parametric over the
  external optimization backend;
* `SCMEParameterApplier.__call__`
  (`src/scme_fitting/scme_objective_function.py`);
* `process_csv` (`src/scme_fitting/data_utils.py`);
* `next_free_folder` (`src/scme_fitting/utils.py`).

Python `dict`s are modelled as ordered association lists with unique keys,
which matches insertion-ordered Python dictionaries.  Numeric scalars are
modelled as rationals.
-/

set_option autoImplicit false

namespace SCMEFitting

universe u

/-- A nested parameter value: either a numeric scalar leaf or a nested
mapping (Python: a scalar or a `dict`). -/
inductive Nested (β : Type u) : Type u where
  | leaf (v : β)
  | node (entries : List (String × Nested β))

/-- A nested parameter mapping (a Python `dict` whose values are scalars or
further `dict`s), modelled as an insertion-ordered association list. -/
abbrev NDict (β : Type u) : Type u := List (String × Nested β)

variable {β γ : Type u}

/-! ## Python dictionary primitives on association lists -/

/-- Python `d.get(k)` / `d[k]`: the value stored at the first (and, for a
well-formed dict, only) occurrence of key `k`. -/
def dictGet (d : List (String × β)) (k : String) : Option β :=
  match d with
  | [] => none
  | (k', v) :: rest => if k' = k then some v else dictGet rest k

/-- Python `d[k] = v`: overwrite in place if the key is present (keeping its
position), otherwise append at the end. -/
def dictSet (d : List (String × β)) (k : String) (v : β) : List (String × β) :=
  if k ∈ d.map Prod.fst then
    d.map (fun kv => if kv.1 = k then (k, v) else kv)
  else
    d ++ [(k, v)]

/-- Build a Python dict from a list of key/value pairs (later pairs
overwrite earlier ones, as in `dict(pairs)`). -/
def dictFromPairs (l : List (String × β)) : List (String × β) :=
  l.foldl (fun acc kv => dictSet acc kv.1 kv.2) []

theorem dictGet_eq_none_of_not_mem {k : String} {d : List (String × β)}
    (h : k ∉ d.map Prod.fst) : dictGet d k = none := by
  induction d with
  | nil => rfl
  | cons kv rest ih =>
    simp only [List.map_cons, List.mem_cons] at h
    push_neg at h
    cases kv with
    | mk a b =>
      have hne : ¬ a = k := fun he => h.1 he.symm
      simp only [dictGet, if_neg hne, ih h.2]

theorem mem_keys_of_dictGet_eq_some {k : String} {v : β} {d : List (String × β)}
    (h : dictGet d k = some v) : k ∈ d.map Prod.fst := by
  induction d with
  | nil => simp [dictGet] at h
  | cons kv rest ih =>
    cases kv with
    | mk a b =>
      by_cases hk : a = k
      · simp [hk]
      · simp only [dictGet, if_neg hk] at h
        simp [ih h]

theorem dictGet_cons_self {k : String} {v : β} {d : List (String × β)} :
    dictGet ((k, v) :: d) k = some v := by
  simp [dictGet]

theorem dictGet_cons_ne {k k' : String} {v : β} {d : List (String × β)} (h : k' ≠ k) :
    dictGet ((k', v) :: d) k = dictGet d k := by
  simp [dictGet, if_neg h]

theorem dictGet_append {k : String} {d₁ d₂ : List (String × β)} :
    dictGet (d₁ ++ d₂) k = (dictGet d₁ k).or (dictGet d₂ k) := by
  induction d₁ with
  | nil => rfl
  | cons kv rest ih =>
    cases kv with
    | mk a b =>
      by_cases hk : a = k
      · subst hk; simp [dictGet_cons_self]
      · simp only [List.cons_append, dictGet_cons_ne hk, ih]

/-- Keys of `dictSet` when the key is already present. -/
theorem dictSet_keys_of_mem {d : List (String × β)} {k : String} (v : β)
    (h : k ∈ d.map Prod.fst) :
    (dictSet d k v).map Prod.fst = d.map Prod.fst := by
  simp only [dictSet, if_pos h, List.map_map]
  apply List.map_congr_left
  intro kv _
  by_cases hk : kv.1 = k
  · simp [hk]
  · simp [if_neg hk]

theorem dictSet_of_not_mem {d : List (String × β)} {k : String} (v : β)
    (h : k ∉ d.map Prod.fst) : dictSet d k v = d ++ [(k, v)] := by
  simp [dictSet, if_neg h]

theorem dictGet_dictSet_self {d : List (String × β)} {k : String} {v : β} :
    dictGet (dictSet d k v) k = some v := by
  by_cases h : k ∈ d.map Prod.fst
  · simp only [dictSet, if_pos h]
    induction d with
    | nil => simp at h
    | cons kv rest ih =>
      cases kv with
      | mk a b =>
        by_cases hk : a = k
        · subst hk
          rw [List.map_cons, if_pos (show (a, b).1 = a from rfl)]
          exact dictGet_cons_self
        · rw [List.map_cons, if_neg (show ¬ (a, b).1 = k from hk)]
          rw [dictGet_cons_ne hk]
          have hmem : k ∈ rest.map Prod.fst := by
            rw [List.map_cons, List.mem_cons] at h
            rcases h with h1 | h1
            · exact absurd h1.symm hk
            · exact h1
          exact ih hmem
  · rw [dictSet_of_not_mem v h, dictGet_append, dictGet_eq_none_of_not_mem h]
    simp [dictGet_cons_self]

theorem dictGet_dictSet_ne {d : List (String × β)} {k k' : String} {v : β} (h : k' ≠ k) :
    dictGet (dictSet d k' v) k = dictGet d k := by
  by_cases hm : k' ∈ d.map Prod.fst
  · simp only [dictSet, if_pos hm]
    induction d with
    | nil => rfl
    | cons kv rest ih =>
      cases kv with
      | mk a b =>
        by_cases hk : a = k'
        · subst hk
          rw [List.map_cons, if_pos (show (a, b).1 = a from rfl)]
          rw [dictGet_cons_ne h, dictGet_cons_ne h]
          by_cases hm' : (a : String) ∈ rest.map Prod.fst
          · exact ih hm'
          · have hid : ∀ kv ∈ rest, (if kv.1 = a then (a, v) else kv) = id kv := by
              intro x hx
              rw [if_neg, id]
              intro hxe
              exact hm' (hxe ▸ List.mem_map_of_mem Prod.fst hx)
            rw [List.map_congr_left hid, List.map_id]
        · rw [List.map_cons, if_neg (show ¬ (a, b).1 = k' from hk)]
          have hm2 : k' ∈ rest.map Prod.fst := by
            rw [List.map_cons, List.mem_cons] at hm
            rcases hm with h1 | h1
            · exact absurd h1.symm hk
            · exact h1
          by_cases hak : a = k
          · subst hak
            simp [dictGet_cons_self]
          · rw [dictGet_cons_ne hak, dictGet_cons_ne hak]
            exact ih hm2
  · rw [dictSet_of_not_mem v hm, dictGet_append]
    have h2 : dictGet [(k', v)] k = none := by
      simp [dictGet, if_neg h]
    simp [h2]

/-- The result of `dict(pairs)` always produces a mapping with pairwise-distinct keys. -/
theorem dictFromPairs_nodup_keys (l : List (String × β)) :
    ((dictFromPairs l).map Prod.fst).Nodup := by
  suffices H : ∀ acc : List (String × β), (acc.map Prod.fst).Nodup →
      ((l.foldl (fun acc kv => dictSet acc kv.1 kv.2) acc).map Prod.fst).Nodup by
    exact H [] (by simp)
  induction l with
  | nil => intro acc h; simpa using h
  | cons kv rest ih =>
    intro acc hacc
    simp only [List.foldl_cons]
    apply ih
    by_cases hm : kv.1 ∈ acc.map Prod.fst
    · rwa [dictSet_keys_of_mem _ hm]
    · rw [dictSet_of_not_mem _ hm]
      simp only [List.map_append, List.map_cons, List.map_nil]
      rw [List.nodup_append]
      exact ⟨hacc, List.nodup_singleton _, by simpa using hm⟩

theorem dictFromPairs_go_of_nodup :
    ∀ (l acc : List (String × β)), (l.map Prod.fst).Nodup →
      (∀ kv ∈ l, kv.1 ∉ acc.map Prod.fst) →
      l.foldl (fun acc kv => dictSet acc kv.1 kv.2) acc = acc ++ l := by
  intro l
  induction l with
  | nil => intro acc _ _; simp
  | cons kv rest ih =>
    intro acc h hdisj
    rw [List.map_cons, List.nodup_cons] at h
    simp only [List.foldl_cons]
    have hset : dictSet acc kv.1 kv.2 = acc ++ [kv] := by
      rw [dictSet_of_not_mem _ (hdisj kv (by simp))]
    have hcond : ∀ kv' ∈ rest, kv'.1 ∉ (acc ++ [kv]).map Prod.fst := by
      intro kv' hkv'
      simp only [List.map_append, List.map_cons, List.map_nil, List.mem_append,
        List.mem_singleton]
      rintro (hin | heq)
      · exact hdisj kv' (by simp [hkv']) hin
      · exact h.1 (heq ▸ List.mem_map_of_mem Prod.fst hkv')
    rw [hset, ih (acc ++ [kv]) h.2 hcond]
    simp

/-- On a pair list whose keys are already distinct, `dict(pairs)` keeps the
list unchanged. -/
theorem dictFromPairs_of_nodup {l : List (String × β)}
    (h : (l.map Prod.fst).Nodup) : dictFromPairs l = l := by
  simpa using dictFromPairs_go_of_nodup l [] h (by simp)

/-! ## The key separator: joining and splitting path segments on `'.'` -/

/-- Characters of the dot-joined key `"s₁.s₂.⋯.sₙ"`. -/
def joinChars : List (List Char) → List Char
  | [] => []
  | [l] => l
  | l :: l' :: ls => l ++ '.' :: joinChars (l' :: ls)

/-- Splitting a character list on `'.'` (always returns at least one,
possibly empty, segment — like Python's `str.split('.')`). -/
def splitCharsAux : List Char → List Char → List (List Char)
  | [], cur => [cur.reverse]
  | c :: rest, cur =>
    if c = '.' then cur.reverse :: splitCharsAux rest []
    else splitCharsAux rest (c :: cur)

/-- A flat key joined from path segments with the `'.'` separator. -/
def joinKey (segs : List String) : String :=
  ⟨joinChars (segs.map String.toList)⟩

/-- A flat key split on the `'.'` separator into path segments. -/
def splitKey (s : String) : List String :=
  (splitCharsAux s.toList []).map (fun l => ⟨l⟩)

/-- A string is separator-free if it contains no `'.'`. -/
def sepFree (s : String) : Bool := s.toList.all (fun c => c ≠ '.')

theorem splitCharsAux_sepFree (l : List Char) (hl : ∀ c ∈ l, c ≠ '.') :
    ∀ cur, splitCharsAux l cur = [cur.reverse ++ l] := by
  induction l with
  | nil => intro cur; simp [splitCharsAux]
  | cons c₀ l ih =>
    intro cur
    have hc₀ : c₀ ≠ '.' := hl c₀ (by simp)
    have hl' : ∀ c ∈ l, c ≠ '.' := fun c hc => hl c (by simp [hc])
    simp only [splitCharsAux, if_neg hc₀]
    rw [ih hl' (c₀ :: cur)]
    simp

theorem splitCharsAux_sep (l : List Char) (hl : ∀ c ∈ l, c ≠ '.') (rest : List Char) :
    ∀ cur, splitCharsAux (l ++ '.' :: rest) cur =
      (cur.reverse ++ l) :: splitCharsAux rest [] := by
  induction l with
  | nil => intro cur; simp [splitCharsAux]
  | cons c₀ l ih =>
    intro cur
    have hc₀ : c₀ ≠ '.' := hl c₀ (by simp)
    have hl' : ∀ c ∈ l, c ≠ '.' := fun c hc => hl c (by simp [hc])
    simp only [List.cons_append, splitCharsAux, if_neg hc₀]
    have h := ih hl' (c₀ :: cur)
    simp only [List.reverse_cons, List.append_assoc, List.singleton_append] at h
    exact h

/-- Splitting undoes joining, as long as every segment is separator-free. -/
theorem splitChars_joinChars (segs : List (List Char))
    (hne : segs ≠ []) (hsep : ∀ l ∈ segs, ∀ c ∈ l, c ≠ '.') :
    splitCharsAux (joinChars segs) [] = segs := by
  induction segs with
  | nil => exact absurd rfl hne
  | cons l ls ih =>
    match ls with
    | [] =>
      simpa [joinChars] using splitCharsAux_sepFree l (hsep l (by simp)) []
    | l' :: ls' =>
      simp only [joinChars]
      rw [splitCharsAux_sep l (hsep l (by simp)) (joinChars (l' :: ls')) []]
      simp only [List.reverse_nil, List.nil_append]
      congr 1
      exact ih (by simp) (fun a ha c hc => hsep a (by simp [ha]) c hc)

theorem splitCharsAux_ne_nil (s : List Char) : ∀ cur, splitCharsAux s cur ≠ [] := by
  induction s with
  | nil => intro cur; simp [splitCharsAux]
  | cons c rest ih =>
    intro cur
    by_cases hc : c = '.'
    · simp [splitCharsAux, if_pos hc]
    · simp only [splitCharsAux, if_neg hc]
      exact ih (c :: cur)

/-- Joining undoes splitting, for every string whatsoever. -/
theorem joinChars_splitCharsAux (s : List Char) :
    ∀ cur, joinChars (splitCharsAux s cur) = cur.reverse ++ s := by
  induction s with
  | nil => intro cur; simp [splitCharsAux, joinChars]
  | cons c rest ih =>
    intro cur
    by_cases hc : c = '.'
    · subst hc
      simp only [splitCharsAux, if_pos rfl]
      match h2 : splitCharsAux rest [] with
      | [] => exact absurd h2 (splitCharsAux_ne_nil rest [])
      | x :: xs =>
        simp only [joinChars]
        have h3 := ih []
        rw [h2] at h3
        simp only [List.reverse_nil, List.nil_append] at h3
        rw [show joinChars (x :: xs) = rest from h3]
    · simp only [splitCharsAux, if_neg hc]
      have h := ih (c :: cur)
      simp only [List.reverse_cons, List.append_assoc, List.singleton_append] at h
      rw [h]

theorem mk_toList (s : String) : String.mk s.toList = s := by
  cases s
  rfl

theorem toList_mk (l : List Char) : String.toList (String.mk l) = l := rfl

theorem splitKey_joinKey (segs : List String) (hne : segs ≠ [])
    (hsep : ∀ s ∈ segs, sepFree s = true) : splitKey (joinKey segs) = segs := by
  unfold splitKey joinKey
  rw [toList_mk, splitChars_joinChars]
  · rw [List.map_map]
    simp only [Function.comp_def, mk_toList, List.map_id']
  · simpa using hne
  · intro l hl c hc
    rcases List.mem_map.mp hl with ⟨s, hs, rfl⟩
    have hsf := hsep s hs
    unfold sepFree at hsf
    rw [List.all_eq_true] at hsf
    simpa using hsf c hc

theorem joinKey_splitKey (s : String) : joinKey (splitKey s) = s := by
  unfold splitKey joinKey
  rw [List.map_map]
  simp only [Function.comp_def, toList_mk, List.map_id']
  have h := joinChars_splitCharsAux s.toList []
  simp only [List.reverse_nil, List.nil_append] at h
  rw [h, mk_toList]

theorem splitKey_injective : Function.Injective splitKey := by
  intro s₁ s₂ h
  have := congrArg joinKey h
  rwa [joinKey_splitKey, joinKey_splitKey] at this

/-! ## `flatten_dict` and `unflatten_dict`

Modelled from the spec: the nested⇄flat transform is provided by the
external `pydictnest` dependency (`flatten_dict`, `unflatten_dict`), which
is not part of the repository sources.  Per the spec, `flatten` is a
depth-first traversal producing one entry per scalar leaf, keyed by the
path segments joined with the `'.'` separator (`group.name`), and
`unflatten` splits each flat key on the separator and rebuilds the nested
mapping by successive insertion. -/

/-- Depth-first flattening to (path, value) pairs, in traversal order. -/
def flattenE : NDict β → List (List String × β)
  | [] => []
  | (k, .leaf v) :: rest => ([k], v) :: flattenE rest
  | (k, .node sub) :: rest =>
      (flattenE sub).map (fun pv => (k :: pv.1, pv.2)) ++ flattenE rest

/-- Python `pydictnest.flatten_dict`: a flat Python dict keyed by dot-joined paths. -/
def flatten_dict (d : NDict β) : List (String × β) :=
  dictFromPairs ((flattenE d).map (fun pv => (joinKey pv.1, pv.2)))

/-- Insertion of one value at a path into a nested mapping, mirroring
`unflatten_dict`'s `setdefault` walk: intermediate segments navigate into
(or append) sub-dicts, the final segment assigns the leaf.  Returns `none`
when an intermediate segment hits an existing scalar leaf (a `TypeError` in
Python). -/
def insertPath : NDict β → List String → β → Option (NDict β)
  | _, [], _ => none
  | d, [k], v => some (dictSet d k (.leaf v))
  | d, k :: k' :: p, v =>
    match dictGet d k with
    | some (.node sub) =>
        (insertPath sub (k' :: p) v).map (fun sub' => dictSet d k (.node sub'))
    | some (.leaf _) => none
    | none =>
        (insertPath [] (k' :: p) v).map (fun sub' => d ++ [(k, .node sub')])

/-- Folding `insertPath` over a list of (path, value) pairs. -/
def unflattenLoop : NDict β → List (List String × β) → Option (NDict β)
  | acc, [] => some acc
  | acc, (p, v) :: rest =>
    match insertPath acc p v with
    | some acc' => unflattenLoop acc' rest
    | none => none

/-- Python `pydictnest.unflatten_dict`: split each flat key on the separator and
insert the leaves in order. -/
def unflatten_dict (l : List (String × β)) : Option (NDict β) :=
  unflattenLoop [] (l.map (fun kv => (splitKey kv.1, kv.2)))

/-! ## Well-formedness of nested mappings

A nested mapping built from an actual Python dict of parameters always has
pairwise-distinct keys at every level.  The separator-freedom and
no-empty-sub-dict conditions are genuine restrictions, needed for the
round-trip property (see `flatten_unflatten_roundtrip_counterexample`). -/

mutual
/-- Well-formed nested value: sub-dicts are well-formed and nonempty. -/
def wfN : Nested β → Bool
  | .leaf _ => true
  | .node es => !es.isEmpty && wfE es

/-- Well-formed nested mapping: distinct separator-free keys at every
level, and no empty sub-dict. -/
def wfE : NDict β → Bool
  | [] => true
  | (k, t) :: rest =>
      sepFree k && !(rest.map Prod.fst).contains k && wfN t && wfE rest
end

/-- The value stored at a full path of a nested mapping (`none` if the path
does not lead to a scalar leaf). -/
def leafAt : NDict β → List String → Option β
  | _, [] => none
  | d, [k] =>
    match dictGet d k with
    | some (.leaf v) => some v
    | _ => none
  | d, k :: k' :: p =>
    match dictGet d k with
    | some (.node sub) => leafAt sub (k' :: p)
    | _ => none

/-- Path `q` is an initial segment of `r` (as key paths). -/
def Below (q r : List String) : Prop := ∃ s, r = q ++ s

theorem below_refl (q : List String) : Below q q := ⟨[], by simp⟩

theorem below_cons {k : String} {q r : List String} :
    Below (k :: q) (k :: r) ↔ Below q r := by
  constructor
  · rintro ⟨s, hs⟩
    exact ⟨s, by simpa using hs⟩
  · rintro ⟨s, hs⟩
    exact ⟨s, by simp [hs]⟩

theorem not_below_nil {k : String} {q : List String} : ¬ Below (k :: q) [] := by
  rintro ⟨s, hs⟩
  simp at hs

theorem below_ne_head {k k' : String} {q r : List String} (h : k ≠ k') :
    ¬ Below (k :: q) (k' :: r) := by
  rintro ⟨s, hs⟩
  simp only [List.cons_append, List.cons.injEq] at hs
  exact h hs.1.symm

/-! ## `SCMEParameterApplier.__call__`
(`src/scme_fitting/scme_objective_function.py`)

The model's assignable parameter surface (`atoms.calc.scme`) is modelled
as an association list from attribute names to current values; `hasattr`
is membership among its keys and `setattr` is in-place update. -/

/-- The error raised when a parameter name has no corresponding assignable
field (Python: `KeyError("Cannot set parameter ...")`; spec taxonomy:
`UnknownParameter`). -/
inductive ApplyError where
  | unknownParameter (key : String)
deriving DecidableEq

/-- Python `SCMEParameterApplier.__call__`: iterate over the parameter items; if
the name is an attribute of the SCME potential, assign it, otherwise raise.
Returns the model surface after all assignments made so far, together with
the error, if any. -/
def applyParams (attrs : List (String × ℚ)) :
    List (String × ℚ) → List (String × ℚ) × Option ApplyError
  | [] => (attrs, none)
  | (key, value) :: rest =>
    if key ∈ attrs.map Prod.fst then applyParams (dictSet attrs key value) rest
    else (attrs, some (.unknownParameter key))

/-- Modelled from the spec: the objective-function classes
(`EnergyObjectiveFunction` and friends, absent from the sources) first
apply the parameters onto the model via `SCMEParameterApplier` and only
then invoke the external evaluator to obtain the predicted scalar; an
application error aborts the evaluation. -/
def evalObjective (evalF : List (String × ℚ) → ℚ) (attrs params : List (String × ℚ)) :
    Except ApplyError ℚ :=
  match applyParams attrs params with
  | (_, some e) => .error e
  | (attrs', none) => .ok (evalF attrs')

theorem applyParams_keys (attrs params : List (String × ℚ)) :
    (applyParams attrs params).1.map Prod.fst = attrs.map Prod.fst := by
  induction params generalizing attrs with
  | nil => rfl
  | cons kv rest ih =>
    cases kv with
    | mk key value =>
      by_cases h : key ∈ attrs.map Prod.fst
      · simp only [applyParams, if_pos h]
        rw [ih, dictSet_keys_of_mem _ h]
      · simp only [applyParams, if_neg h]

/-- If some parameter name is not on the assignable surface, application
stops with `UnknownParameter` (for the first such name). -/
theorem applyParams_error_of_unknown (attrs params : List (String × ℚ))
    (h : ∃ kv ∈ params, kv.1 ∉ attrs.map Prod.fst) :
    ∃ attrs' e, applyParams attrs params = (attrs', some e) := by
  induction params generalizing attrs with
  | nil => simp at h
  | cons kv rest ih =>
    cases kv with
    | mk key value =>
      by_cases hk : key ∈ attrs.map Prod.fst
      · simp only [applyParams, if_pos hk]
        apply ih
        rcases h with ⟨kv', hkv', hout⟩
        rcases List.mem_cons.mp hkv' with he | hin
        · exact absurd hk (by rw [he] at hout; simpa using hout)
        · exact ⟨kv', hin, by rwa [dictSet_keys_of_mem _ hk]⟩
      · exact ⟨attrs, .unknownParameter key, by simp [applyParams, if_neg hk]⟩

/-- Parameters already applied are untouched by the remaining iteration. -/
theorem applyParams_get_of_not_key (attrs params : List (String × ℚ)) (k : String)
    (h : k ∉ params.map Prod.fst) :
    dictGet (applyParams attrs params).1 k = dictGet attrs k := by
  induction params generalizing attrs with
  | nil => rfl
  | cons kv rest ih =>
    cases kv with
    | mk key value =>
      rw [List.map_cons, List.mem_cons] at h
      push_neg at h
      by_cases hk : key ∈ attrs.map Prod.fst
      · simp only [applyParams, if_pos hk]
        rw [ih _ h.2, dictGet_dictSet_ne (fun he => h.1 he.symm)]
      · simp only [applyParams, if_neg hk]

/-! ## `process_csv` (`src/scme_fitting/data_utils.py`) -/

/-- A filesystem path as constructed by the loader: either taken verbatim
from a CSV cell (`Path(p)` — absolute, or relative to the caller's working
directory), or joined onto a base directory (`base / fname`). -/
inductive PathM where
  | verbatim (s : String)
  | joined (base : PathM) (fname : String)
deriving DecidableEq

/-- The in-memory CSV table (`pandas.read_csv` result): the optional `path`
and `file` columns, and the `tag` and `reference_energy` columns, all in
row order. -/
structure CSVTable where
  pathCol : Option (List String)
  fileCol : Option (List String)
  tagCol : List String
  energyCol : List ℚ

/-- Python `process_csv`: if a `path` column is present, use its values verbatim;
otherwise resolve each `file` value against the resolved parent directory
of the CSV itself (`csvParent` models `path_to_csv.parent.resolve()`).
`none` models the `KeyError` raised when neither column exists. -/
def process_csv (csvParent : PathM) (t : CSVTable) :
    Option (List PathM × List String × List ℚ) :=
  match t.pathCol with
  | some ps => some (ps.map PathM.verbatim, t.tagCol, t.energyCol)
  | none =>
    match t.fileCol with
    | some fs => some (fs.map (fun f => PathM.joined csvParent f), t.tagCol, t.energyCol)
    | none => none

/-! ## `next_free_folder` (`src/scme_fitting/utils.py`)

The filesystem is modelled as the list of names of existing entries; the
Python f-string `f"{base.name}_{i}"` is modelled by appending `'_'` and
the decimal digits of `i` to the base name. -/

/-- Decimal digits of a natural number (no leading zeros), as produced by
Python's `str(i)`. -/
def natDigits (n : ℕ) : List Char :=
  if _h : n < 10 then [Nat.digitChar n]
  else natDigits (n / 10) ++ [Nat.digitChar (n % 10)]
decreasing_by exact Nat.div_lt_self (by omega) (by omega)

theorem natDigits_eq_small {n : ℕ} (h : n < 10) : natDigits n = [Nat.digitChar n] := by
  rw [natDigits, dif_pos h]

theorem natDigits_eq_large {n : ℕ} (h : ¬ n < 10) :
    natDigits n = natDigits (n / 10) ++ [Nat.digitChar (n % 10)] := by
  conv_lhs => rw [natDigits]
  rw [dif_neg h]

theorem natDigits_ne_nil (n : ℕ) : natDigits n ≠ [] := by
  by_cases h : n < 10
  · rw [natDigits_eq_small h]
    simp
  · rw [natDigits_eq_large h]
    simp

theorem digitChar_inj_lt {a b : ℕ} (ha : a < 10) (hb : b < 10)
    (h : Nat.digitChar a = Nat.digitChar b) : a = b := by
  have hd : ∀ x < 10, ∀ y < 10, Nat.digitChar x = Nat.digitChar y → x = y := by decide
  exact hd a ha b hb h

theorem natDigits_injective : ∀ a b : ℕ, natDigits a = natDigits b → a = b := by
  intro a
  induction a using Nat.strong_induction_on with
  | _ a ih =>
    intro b h
    by_cases ha : a < 10
    · by_cases hb : b < 10
      · rw [natDigits_eq_small ha, natDigits_eq_small hb] at h
        exact digitChar_inj_lt ha hb (by simpa using h)
      · exfalso
        rw [natDigits_eq_small ha, natDigits_eq_large hb] at h
        have hlen := congrArg List.length h
        have hne := natDigits_ne_nil (b / 10)
        simp only [List.length_cons, List.length_nil, List.length_append] at hlen
        cases hdig : natDigits (b / 10) with
        | nil => exact hne hdig
        | cons x xs => rw [hdig] at hlen; simp at hlen
    · by_cases hb : b < 10
      · exfalso
        rw [natDigits_eq_large ha, natDigits_eq_small hb] at h
        have hlen := congrArg List.length h
        have hne := natDigits_ne_nil (a / 10)
        simp only [List.length_cons, List.length_nil, List.length_append] at hlen
        cases hdig : natDigits (a / 10) with
        | nil => exact hne hdig
        | cons x xs => rw [hdig] at hlen; simp at hlen
      · rw [natDigits_eq_large ha, natDigits_eq_large hb] at h
        have h2 := List.append_inj h (by
          have h1 := congrArg List.length h
          simpa using h1)
        have hdiv : a / 10 = b / 10 :=
          ih (a / 10) (Nat.div_lt_self (by omega) (by omega)) _ h2.1
        have hmod : a % 10 = b % 10 := by
          have := h2.2
          simp only [List.cons.injEq] at this
          exact digitChar_inj_lt (Nat.mod_lt _ (by omega)) (Nat.mod_lt _ (by omega)) this.1
        omega

/-- The `i`-th collision-avoidance candidate,
`base.with_name(f"{base.name}_{i}")`. -/
def candName (base : String) (i : ℕ) : String :=
  ⟨base.toList ++ '_' :: natDigits i⟩

theorem candName_injective (base : String) : Function.Injective (candName base) := by
  intro i j h
  unfold candName at h
  have hl : base.toList ++ '_' :: natDigits i = base.toList ++ '_' :: natDigits j := by
    have := congrArg String.toList h
    simpa [toList_mk] using this
  have := List.append_cancel_left hl
  exact natDigits_injective i j (by simpa using this)

/-- Some candidate name is always free of collisions with the (finitely
many) existing entries. -/
theorem exists_free_candidate (existing : List String) (base : String) :
    ∃ i, candName base i ∉ existing := by
  by_contra hall
  push_neg at hall
  set l := (List.range (existing.length + 1)).map (candName base) with hl
  have hnodup : l.Nodup := (List.nodup_range _).map (candName_injective base)
  have hsub : l ⊆ existing := by
    intro x hx
    rcases List.mem_map.mp hx with ⟨i, _, rfl⟩
    exact hall i
  have h1 : l.toFinset.card = l.length := List.toFinset_card_of_nodup hnodup
  have h2 : l.toFinset ⊆ existing.toFinset := by
    intro x hx
    exact List.mem_toFinset.mpr (hsub (List.mem_toFinset.mp hx))
  have h3 : existing.toFinset.card ≤ existing.length := existing.toFinset_card_le
  have h4 : l.length = existing.length + 1 := by simp [hl]
  have := Finset.card_le_card h2
  omega

/-- Python `next_free_folder`: return `base` if it does not exist, otherwise the
first of `base_0`, `base_1`, … that does not exist. -/
def next_free_folder (existing : List String) (base : String) : String :=
  if base ∈ existing then
    candName base (Nat.find (exists_free_candidate existing base))
  else base

/-! ## `Fitter.fit_scipy` (`src/scme_fitting/fitter.py`)

`scipy.optimize.minimize` is external; it is modelled as an arbitrary
function of the data `fit_scipy` actually hands it: the flat-vector
objective adapter, the initial vector `x0`, and the aligned bounds array
(`None` when empty).  The adapter returns `none` where the Python
callback would raise. -/

/-- A per-coordinate bound pair; `(none, none)` is unbounded. -/
abbrev BoundPair : Type := Option ℚ × Option ℚ

/-- The result object returned by `scipy.optimize.minimize`: the best
iterate `x`, the `success` flag, and the diagnostic `message`. -/
structure MinimizeResult where
  x : List ℚ
  success : Bool
  message : String

/-- The type of the external backend `scipy.optimize.minimize`, as seen
through `fit_scipy`'s call. -/
abbrev Minimizer : Type :=
  (List ℚ → Option ℚ) → List ℚ → Option (List BoundPair) → MinimizeResult

/-- Python `flat_bounds.get(k, (None, None))` (spec: `bounds_for`). -/
def bounds_for (flat_bounds : List (String × BoundPair)) (k : String) : BoundPair :=
  (dictGet flat_bounds k).getD (none, none)

/-- Everything `fit_scipy` computes, kept for inspection: the captured key
ordering, the initial vector, the aligned bounds array, the flat-vector
adapter, the backend result, the warnings logged, and the returned nested
optimum. -/
structure FitTrace where
  keys : List String
  x0 : List ℚ
  boundsArr : Option (List BoundPair)
  adapter : List ℚ → Option ℚ
  res : MinimizeResult
  warnings : List String
  optParams : Option (NDict ℚ)

/-- Python `Fitter.fit_scipy`: flatten the initial parameters and the bounds,
capture the flat key ordering, build `x0` and the aligned bounds array
from it, wrap the objective behind the flat-vector adapter, call the
backend, warn if it did not converge, and unflatten the result. -/
def fit_scipy (minimize : Minimizer) (objective_function : NDict ℚ → ℚ)
    (initial_parameters : NDict ℚ) (bounds : NDict BoundPair) : FitTrace :=
  let flat_params := flatten_dict initial_parameters
  let flat_bounds := flatten_dict bounds
  let keys := flat_params.map Prod.fst
  let x0 := keys.map (fun k => (dictGet flat_params k).getD 0)
  let boundsList := keys.map (fun k => bounds_for flat_bounds k)
  let boundsArr := if boundsList.length = 0 then none else some boundsList
  let f_scipy := fun x =>
    (unflatten_dict (dictFromPairs (keys.zip x))).map objective_function
  let res := minimize f_scipy x0 boundsArr
  let warnings :=
    if res.success then [] else ["Fit did not converge: " ++ res.message]
  let opt_params := unflatten_dict (dictFromPairs (keys.zip res.x))
  { keys := keys, x0 := x0, boundsArr := boundsArr, adapter := f_scipy,
    res := res, warnings := warnings, optParams := opt_params }

/-! ## Supporting lemmas for the fitter claims -/

theorem map_dictGet_self {d : List (String × β)} (h : (d.map Prod.fst).Nodup) (z : β) :
    (d.map Prod.fst).map (fun k => (dictGet d k).getD z) = d.map Prod.snd := by
  induction d with
  | nil => rfl
  | cons kv rest ih =>
    cases kv with
    | mk a b =>
      rw [List.map_cons, List.nodup_cons] at h
      simp only [List.map_cons]
      congr 1
      · rw [dictGet_cons_self]
        rfl
      · have hcong : ∀ k ∈ rest.map Prod.fst,
            (dictGet ((a, b) :: rest) k).getD z = (dictGet rest k).getD z := by
          intro k hk
          have hne : a ≠ k := by
            intro he
            exact h.1 (he ▸ hk)
          rw [dictGet_cons_ne hne]
        rw [List.map_congr_left hcong, ih h.2]

theorem option_or_none (o : Option β) : o.or none = o := by
  cases o <;> rfl

/-! ## Claim C2: one key ordering per fit call -/

/-- C2.  Within a single `fit_scipy` call, exactly one key ordering is used
throughout: the ordering captured when the initial parameters are flattened
is the ordering used to build the initial vector `x0`, to align the bounds
array, to unflatten each candidate vector inside the objective adapter, and
to unflatten the optimizer's result. -/
theorem fit_scipy_single_key_ordering (minimize : Minimizer) (ob : NDict ℚ → ℚ)
    (init : NDict ℚ) (bounds : NDict BoundPair) :
    (fit_scipy minimize ob init bounds).keys = (flatten_dict init).map Prod.fst ∧
    (fit_scipy minimize ob init bounds).x0 = (flatten_dict init).map Prod.snd ∧
    (fit_scipy minimize ob init bounds).boundsArr =
      (if (fit_scipy minimize ob init bounds).keys.length = 0 then none
       else some ((fit_scipy minimize ob init bounds).keys.map
          (fun k => bounds_for (flatten_dict bounds) k))) ∧
    (∀ x, (fit_scipy minimize ob init bounds).adapter x =
      (unflatten_dict (dictFromPairs ((fit_scipy minimize ob init bounds).keys.zip x))).map ob) ∧
    (fit_scipy minimize ob init bounds).res =
      minimize (fit_scipy minimize ob init bounds).adapter
        (fit_scipy minimize ob init bounds).x0
        (fit_scipy minimize ob init bounds).boundsArr ∧
    (fit_scipy minimize ob init bounds).optParams =
      unflatten_dict (dictFromPairs
        ((fit_scipy minimize ob init bounds).keys.zip
          (fit_scipy minimize ob init bounds).res.x)) := by
  refine ⟨rfl, ?_, ?_, fun x => rfl, rfl, rfl⟩
  · show ((flatten_dict init).map Prod.fst).map
        (fun k => (dictGet (flatten_dict init) k).getD 0) = (flatten_dict init).map Prod.snd
    exact map_dictGet_self (dictFromPairs_nodup_keys _) 0
  · have hlen : (((flatten_dict init).map Prod.fst).map
        (fun k => bounds_for (flatten_dict bounds) k)).length
        = ((flatten_dict init).map Prod.fst).length := by
      rw [List.length_map]
    show (if (((flatten_dict init).map Prod.fst).map
        (fun k => bounds_for (flatten_dict bounds) k)).length = 0 then none
      else some _) = _
    rw [hlen]
    rfl

/-! ## Claim C3: non-convergence is recovered, not fatal -/

/-- C3.  When the backend reports non-success, `fit_scipy` logs a warning
("Fit did not converge: …") and still unflattens and returns the best
iterate `res.x`, exactly as in the convergent case. -/
theorem fit_scipy_nonconvergence_recovered (minimize : Minimizer) (ob : NDict ℚ → ℚ)
    (init : NDict ℚ) (bounds : NDict BoundPair)
    (h : (fit_scipy minimize ob init bounds).res.success = false) :
    (fit_scipy minimize ob init bounds).warnings =
      ["Fit did not converge: " ++ (fit_scipy minimize ob init bounds).res.message] ∧
    (fit_scipy minimize ob init bounds).optParams =
      unflatten_dict (dictFromPairs
        ((fit_scipy minimize ob init bounds).keys.zip
          (fit_scipy minimize ob init bounds).res.x)) := by
  constructor
  · show (if (fit_scipy minimize ob init bounds).res.success then [] else _) = _
    rw [h]
    rfl
  · rfl

/-- Witness for C3 at a concrete non-converging backend. -/
theorem fit_scipy_nonconvergence_recovered_witness :
    (fit_scipy (fun _ _ _ => ⟨[2], false, "maxiter"⟩) (fun _ => 0)
        [("x", Nested.leaf 1)] []).res.success = false ∧
    (fit_scipy (fun _ _ _ => ⟨[2], false, "maxiter"⟩) (fun _ => 0)
        [("x", Nested.leaf 1)] []).warnings = ["Fit did not converge: maxiter"] := by
  refine ⟨rfl, ?_⟩
  have h := fit_scipy_nonconvergence_recovered
    (fun _ _ _ => ⟨[2], false, "maxiter"⟩) (fun _ => 0) [("x", Nested.leaf 1)] [] rfl
  rw [h.1]
  rfl

/-! ## Claim C6: bound defaulting and silent dropping of stray bounds -/

/-- C6.  A flattened initial-parameter key absent from the bounds mapping
gets the bound `(None, None)`; a bounds key with no counterpart among the
flattened initial parameters is silently ignored, wherever it sits in the
flattened bounds mapping: the whole fit call behaves identically with or
without it. -/
theorem fit_scipy_bounds_alignment (minimize : Minimizer) (ob : NDict ℚ → ℚ)
    (init : NDict ℚ) (b₁ b₂ : NDict BoundPair)
    (l₁ l₂ : List (String × BoundPair)) (k' : String) (bp : BoundPair)
    (hk' : k' ∉ (fit_scipy minimize ob init b₁).keys)
    (hflat₂ : flatten_dict b₂ = l₁ ++ (k', bp) :: l₂)
    (hflat₁ : flatten_dict b₁ = l₁ ++ l₂) :
    (∀ k, k ∉ (flatten_dict b₁).map Prod.fst →
      bounds_for (flatten_dict b₁) k = (none, none)) ∧
    fit_scipy minimize ob init b₂ = fit_scipy minimize ob init b₁ := by
  constructor
  · intro k hk
    unfold bounds_for
    rw [dictGet_eq_none_of_not_mem hk]
    rfl
  · have hbf : ∀ k ∈ (flatten_dict init).map Prod.fst,
        bounds_for (flatten_dict b₂) k = bounds_for (flatten_dict b₁) k := by
      intro k hk
      have hkk' : k' ≠ k := fun he => hk' (he ▸ hk)
      unfold bounds_for
      rw [hflat₂, hflat₁, dictGet_append, dictGet_append, dictGet_cons_ne hkk']
    show FitTrace.mk _ _ _ _ _ _ _ = FitTrace.mk _ _ _ _ _ _ _
    rw [List.map_congr_left hbf]

/-- Witness for C6: a stray bound key (`"z"`), flattened before the used
key `"x"`, is ignored entirely. -/
theorem fit_scipy_bounds_alignment_witness :
    bounds_for (flatten_dict [("x", Nested.leaf ((some 0, some 1) : BoundPair))])
        "y" = (none, none) ∧
    fit_scipy (fun _ x _ => ⟨x, true, ""⟩) (fun _ => 0) [("x", Nested.leaf 1)]
        [("z", Nested.leaf (some 2, some 3)), ("x", Nested.leaf (some 0, some 1))]
      = fit_scipy (fun _ x _ => ⟨x, true, ""⟩) (fun _ => 0) [("x", Nested.leaf 1)]
        [("x", Nested.leaf (some 0, some 1))] := by
  have h := fit_scipy_bounds_alignment (fun _ x _ => ⟨x, true, ""⟩) (fun _ => 0)
    [("x", Nested.leaf 1)]
    [("x", Nested.leaf (some 0, some 1))]
    [("z", Nested.leaf (some 2, some 3)), ("x", Nested.leaf (some 0, some 1))]
    [] [("x", (some 0, some 1))] "z" (some 2, some 3)
    (by
      show "z" ∉ (flatten_dict [("x", Nested.leaf (1 : ℚ))]).map Prod.fst
      simp [flatten_dict, flattenE, dictFromPairs, dictSet, joinKey, joinChars])
    (by simp [flatten_dict, flattenE, dictFromPairs, dictSet, joinKey, joinChars])
    (by simp [flatten_dict, flattenE, dictFromPairs, dictSet, joinKey, joinChars])
  exact ⟨h.1 "y" (by
    simp [flatten_dict, flattenE, dictFromPairs, dictSet, joinKey, joinChars]), h.2⟩

/-! ## Claim C4: unknown parameter aborts the evaluation -/

/-- C4.  Applying a parameter mapping containing a name that is not an
assignable field fails with `UnknownParameter`; the objective evaluation
is aborted before any predicted scalar is computed — the outcome does not
depend on the evaluator at all — and no value is scored. -/
theorem unknown_parameter_aborts (evalF evalF' : List (String × ℚ) → ℚ)
    (attrs params : List (String × ℚ))
    (h : ∃ kv ∈ params, kv.1 ∉ attrs.map Prod.fst) :
    (∃ e, evalObjective evalF attrs params = Except.error e) ∧
    evalObjective evalF attrs params = evalObjective evalF' attrs params := by
  obtain ⟨attrs', e, happ⟩ := applyParams_error_of_unknown attrs params h
  constructor
  · refine ⟨e, ?_⟩
    unfold evalObjective
    rw [happ]
  · unfold evalObjective
    rw [happ]

/-- Witness for C4 at a concrete unknown name. -/
theorem unknown_parameter_aborts_witness :
    (∃ e, evalObjective (fun _ => 0) [("td", 1), ("te", 2)] [("nope", 5)]
      = Except.error e) ∧
    evalObjective (fun _ => 0) [("td", 1), ("te", 2)] [("nope", 5)]
      = evalObjective (fun _ => 37) [("td", 1), ("te", 2)] [("nope", 5)] :=
  unknown_parameter_aborts (fun _ => 0) (fun _ => 37) [("td", 1), ("te", 2)]
    [("nope", 5)] ⟨("nope", 5), by simp, by decide⟩

/-! ## Claim C5: no rollback of earlier assignments -/

theorem applyParams_eval_on_unknown (pre : List (String × ℚ)) :
    ∀ (attrs : List (String × ℚ)) (bad : String) (v : ℚ) (rest : List (String × ℚ)),
      (∀ kv ∈ pre, kv.1 ∈ attrs.map Prod.fst) → bad ∉ attrs.map Prod.fst →
      applyParams attrs (pre ++ (bad, v) :: rest) =
        (pre.foldl (fun a kv => dictSet a kv.1 kv.2) attrs,
          some (.unknownParameter bad)) := by
  induction pre with
  | nil =>
    intro attrs bad v rest _ hbad
    simp only [List.nil_append, List.foldl_nil, applyParams, if_neg hbad]
  | cons kv pre' ih =>
    intro attrs bad v rest hpre hbad
    cases kv with
    | mk k w =>
      have hk : k ∈ attrs.map Prod.fst := hpre (k, w) (by simp)
      simp only [List.cons_append, applyParams, if_pos hk, List.foldl_cons]
      apply ih
      · intro kv' hkv'
        rw [dictSet_keys_of_mem _ hk]
        exact hpre kv' (by simp [hkv'])
      · rwa [dictSet_keys_of_mem _ hk]

theorem foldl_dictSet_get_of_not_key (l : List (String × ℚ)) :
    ∀ (attrs : List (String × ℚ)) (k : String), k ∉ l.map Prod.fst →
      dictGet (l.foldl (fun a kv => dictSet a kv.1 kv.2) attrs) k = dictGet attrs k := by
  induction l with
  | nil => intro attrs k _; rfl
  | cons kv l' ih =>
    intro attrs k hk
    rw [List.map_cons, List.mem_cons] at hk
    push_neg at hk
    simp only [List.foldl_cons]
    rw [ih _ _ hk.2, dictGet_dictSet_ne (fun he => hk.1 he.symm)]

theorem foldl_dictSet_get_mem (pre : List (String × ℚ)) :
    ∀ (attrs : List (String × ℚ)), (pre.map Prod.fst).Nodup →
      ∀ kv ∈ pre, dictGet (pre.foldl (fun a kv => dictSet a kv.1 kv.2) attrs) kv.1
        = some kv.2 := by
  induction pre with
  | nil => intro attrs _ kv hkv; simp at hkv
  | cons kv₀ pre' ih =>
    intro attrs hnodup kv hkv
    rw [List.map_cons, List.nodup_cons] at hnodup
    simp only [List.foldl_cons]
    rcases List.mem_cons.mp hkv with he | hin
    · subst he
      rw [foldl_dictSet_get_of_not_key pre' _ _ hnodup.1, dictGet_dictSet_self]
    · exact ih _ hnodup.2 kv hin

/-- C5.  When `UnknownParameter` is raised part-way through a parameter
mapping, assignments already made for the earlier names are not rolled
back: each parameter before the offending one keeps its newly assigned
value on the model surface. -/
theorem unknown_parameter_no_rollback (attrs pre rest : List (String × ℚ))
    (bad : String) (v : ℚ)
    (hpre : ∀ kv ∈ pre, kv.1 ∈ attrs.map Prod.fst)
    (hnodup : (pre.map Prod.fst).Nodup)
    (hbad : bad ∉ attrs.map Prod.fst) :
    (applyParams attrs (pre ++ (bad, v) :: rest)).2
        = some (.unknownParameter bad) ∧
    ∀ kv ∈ pre,
      dictGet (applyParams attrs (pre ++ (bad, v) :: rest)).1 kv.1 = some kv.2 := by
  rw [applyParams_eval_on_unknown pre attrs bad v rest hpre hbad]
  exact ⟨rfl, foldl_dictSet_get_mem pre attrs hnodup⟩

/-- Witness for C5: after the error, `td` keeps its new value `42`. -/
theorem unknown_parameter_no_rollback_witness :
    (applyParams [("td", 1), ("te", 2)] [("td", 42), ("nope", 5)]).2
        = some (.unknownParameter "nope") ∧
    dictGet (applyParams [("td", 1), ("te", 2)] [("td", 42), ("nope", 5)]).1 "td"
        = some 42 := by
  have h := unknown_parameter_no_rollback [("td", 1), ("te", 2)] [("td", 42)] []
    "nope" 5 (by decide) (by decide) (by decide)
  exact ⟨h.1, h.2 ("td", 42) (by simp)⟩

/-! ## Claim C8: dataset loader path resolution -/

/-- C8.  If a `path` column is present its values are converted to paths
verbatim; if only a `file` column is present each value is resolved
relative to the resolved parent directory of the CSV; tags and reference
energies are returned in the same row order. -/
theorem process_csv_path_resolution (csvParent : PathM) (t : CSVTable) :
    (∀ ps, t.pathCol = some ps →
      process_csv csvParent t = some (ps.map PathM.verbatim, t.tagCol, t.energyCol)) ∧
    (∀ fs, t.pathCol = none → t.fileCol = some fs →
      process_csv csvParent t
        = some (fs.map (fun f => PathM.joined csvParent f), t.tagCol, t.energyCol)) := by
  constructor
  · intro ps hps
    unfold process_csv
    rw [hps]
  · intro fs hps hfs
    unfold process_csv
    rw [hps, hfs]

/-- Witness for C8 on a concrete two-row table, one per column layout. -/
theorem process_csv_path_resolution_witness :
    process_csv (PathM.verbatim "/data")
        ⟨some ["/abs/a.xyz", "rel/b.xyz"], none, ["t1", "t2"], [1, 2]⟩
      = some ([PathM.verbatim "/abs/a.xyz", PathM.verbatim "rel/b.xyz"],
          ["t1", "t2"], [1, 2]) ∧
    process_csv (PathM.verbatim "/data")
        ⟨none, some ["a.xyz", "b.xyz"], ["t1", "t2"], [1, 2]⟩
      = some ([PathM.joined (PathM.verbatim "/data") "a.xyz",
          PathM.joined (PathM.verbatim "/data") "b.xyz"], ["t1", "t2"], [1, 2]) := by
  constructor
  · exact (process_csv_path_resolution (PathM.verbatim "/data")
      ⟨some ["/abs/a.xyz", "rel/b.xyz"], none, ["t1", "t2"], [1, 2]⟩).1
      ["/abs/a.xyz", "rel/b.xyz"] rfl
  · exact (process_csv_path_resolution (PathM.verbatim "/data")
      ⟨none, some ["a.xyz", "b.xyz"], ["t1", "t2"], [1, 2]⟩).2
      ["a.xyz", "b.xyz"] rfl rfl

/-! ## Claim C10: `path` silently wins over `file` -/

/-- C10.  When a CSV has both a `path` and a `file` column, the loader
uses the `path` column and ignores the `file` column entirely: the result
is the same as if the `file` column were absent, and no error occurs. -/
theorem process_csv_path_overrides_file (csvParent : PathM) (t : CSVTable)
    (ps fs : List String) (hps : t.pathCol = some ps) (hfs : t.fileCol = some fs) :
    process_csv csvParent t
        = process_csv csvParent ⟨t.pathCol, none, t.tagCol, t.energyCol⟩ ∧
    (process_csv csvParent t).isSome = true := by
  constructor
  · unfold process_csv
    rw [hps]
  · unfold process_csv
    rw [hps]
    rfl

/-- Witness for C10 on a concrete table carrying both columns. -/
theorem process_csv_path_overrides_file_witness :
    process_csv (PathM.verbatim "/data")
        ⟨some ["p.xyz"], some ["f.xyz"], ["t"], [3]⟩
      = process_csv (PathM.verbatim "/data") ⟨some ["p.xyz"], none, ["t"], [3]⟩ ∧
    (process_csv (PathM.verbatim "/data")
        ⟨some ["p.xyz"], some ["f.xyz"], ["t"], [3]⟩).isSome = true :=
  process_csv_path_overrides_file (PathM.verbatim "/data")
    ⟨some ["p.xyz"], some ["f.xyz"], ["t"], [3]⟩ ["p.xyz"] ["f.xyz"] rfl rfl

/-! ## Claim C9: non-colliding output directory -/

/-- C9.  `next_free_folder` returns the base itself when no entry with
that name exists; otherwise it returns the first candidate `base_0`,
`base_1`, … that does not exist.  Either way the returned name never
names an existing entry. -/
theorem next_free_folder_spec (existing : List String) (base : String) :
    (base ∉ existing → next_free_folder existing base = base) ∧
    (base ∈ existing → ∃ i, next_free_folder existing base = candName base i ∧
      candName base i ∉ existing ∧ ∀ j < i, candName base j ∈ existing) ∧
    next_free_folder existing base ∉ existing := by
  refine ⟨?_, ?_, ?_⟩
  · intro h
    unfold next_free_folder
    rw [if_neg h]
  · intro h
    refine ⟨Nat.find (exists_free_candidate existing base), ?_, ?_, ?_⟩
    · unfold next_free_folder
      rw [if_pos h]
    · exact Nat.find_spec (exists_free_candidate existing base)
    · intro j hj
      have := Nat.find_min (exists_free_candidate existing base) hj
      simpa using this
  · unfold next_free_folder
    split
    · exact Nat.find_spec (exists_free_candidate existing base)
    · next h => exact h

/-- Witness for C9: both branches at concrete directory listings. -/
theorem next_free_folder_spec_witness :
    next_free_folder ["out"] "result" = "result" ∧
    (∃ i, next_free_folder ["out"] "out" = candName "out" i ∧
      candName "out" i ∉ ["out"] ∧ ∀ j < i, candName "out" j ∈ ["out"]) ∧
    next_free_folder ["out"] "out" ∉ ["out"] := by
  refine ⟨(next_free_folder_spec ["out"] "result").1 (by decide),
    (next_free_folder_spec ["out"] "out").2.1 (by decide),
    (next_free_folder_spec ["out"] "out").2.2⟩

/-! ## Structure of flattened paths under well-formedness -/

theorem wfE_cons_iff {k : String} {t : Nested β} {rest : NDict β} :
    wfE ((k, t) :: rest) = true ↔
      sepFree k = true ∧ k ∉ rest.map Prod.fst ∧ wfN t = true ∧ wfE rest = true := by
  show (sepFree k && !(rest.map Prod.fst).contains k && wfN t && wfE rest) = true ↔ _
  simp only [Bool.and_eq_true, Bool.not_eq_true']
  constructor
  · rintro ⟨⟨⟨h1, h2⟩, h3⟩, h4⟩
    refine ⟨h1, ?_, h3, h4⟩
    intro hm
    have hel : List.elem k (rest.map Prod.fst) = true := List.elem_iff.mpr hm
    have h2' : List.elem k (rest.map Prod.fst) = false := h2
    rw [hel] at h2'
    cases h2'
  · rintro ⟨h1, h2, h3, h4⟩
    refine ⟨⟨⟨h1, ?_⟩, h3⟩, h4⟩
    show List.elem k (rest.map Prod.fst) = false
    rw [← Bool.not_eq_true]
    intro hc
    exact h2 (List.elem_iff.mp hc)

theorem wfN_node_iff {es : NDict β} :
    wfN (Nested.node es) = true ↔ es ≠ [] ∧ wfE es = true := by
  show (!es.isEmpty && wfE es) = true ↔ _
  simp only [Bool.and_eq_true, Bool.not_eq_true']
  constructor
  · rintro ⟨h1, h2⟩
    refine ⟨?_, h2⟩
    intro he
    rw [he] at h1
    cases h1
  · rintro ⟨h1, h2⟩
    refine ⟨?_, h2⟩
    cases es with
    | nil => exact absurd rfl h1
    | cons x xs => rfl

/-- Every flattened path is nonempty. -/
theorem flattenE_paths_ne_nil (es : NDict β) : ∀ pv ∈ flattenE es, pv.1 ≠ [] := by
  induction es using flattenE.induct with
  | case1 => intro pv hpv; simp [flattenE] at hpv
  | case2 k v rest ih =>
    intro pv hpv
    rw [flattenE] at hpv
    rcases List.mem_cons.mp hpv with he | hin
    · rw [he]; simp
    · exact ih pv hin
  | case3 k sub rest ih₁ ih₂ =>
    intro pv hpv
    rw [flattenE] at hpv
    rcases List.mem_append.mp hpv with hin | hin
    · rcases List.mem_map.mp hin with ⟨pv', _, rfl⟩
      simp
    · exact ih₂ pv hin

/-- Every flattened path starts with a top-level key. -/
theorem flattenE_first_seg (es : NDict β) :
    ∀ pv ∈ flattenE es, ∃ k p', pv.1 = k :: p' ∧ k ∈ es.map Prod.fst := by
  induction es using flattenE.induct with
  | case1 => intro pv hpv; simp [flattenE] at hpv
  | case2 k v rest ih =>
    intro pv hpv
    rw [flattenE] at hpv
    rcases List.mem_cons.mp hpv with he | hin
    · exact ⟨k, [], by rw [he], by simp⟩
    · rcases ih pv hin with ⟨k', p', h1, h2⟩
      exact ⟨k', p', h1, by simp [h2]⟩
  | case3 k sub rest ih₁ ih₂ =>
    intro pv hpv
    rw [flattenE] at hpv
    rcases List.mem_append.mp hpv with hin | hin
    · rcases List.mem_map.mp hin with ⟨pv', _, rfl⟩
      exact ⟨k, pv'.1, rfl, by simp⟩
    · rcases ih₂ pv hin with ⟨k', p', h1, h2⟩
      exact ⟨k', p', h1, by simp [h2]⟩

/-- Under well-formedness the flattened paths are pairwise distinct. -/
theorem flattenE_paths_nodup (es : NDict β) (hwf : wfE es = true) :
    ((flattenE es).map Prod.fst).Nodup := by
  induction es using flattenE.induct with
  | case1 => simp [flattenE]
  | case2 k v rest ih =>
    rcases wfE_cons_iff.mp hwf with ⟨_, hk, _, hrest⟩
    simp only [flattenE, List.map_cons, List.nodup_cons]
    refine ⟨?_, ih hrest⟩
    intro hmem
    rcases List.mem_map.mp hmem with ⟨pv, hpv, hfst⟩
    rcases flattenE_first_seg rest pv hpv with ⟨k', p', h1, h2⟩
    have h3 : k' :: p' = [k] := by rw [← h1, hfst]
    injection h3 with ha _
    exact hk (ha ▸ h2)
  | case3 k sub rest ih₁ ih₂ =>
    rcases wfE_cons_iff.mp hwf with ⟨_, hk, hnode, hrest⟩
    rcases wfN_node_iff.mp hnode with ⟨_, hsub⟩
    simp only [flattenE, List.map_append, List.map_map]
    rw [List.nodup_append]
    have hcomp : (flattenE sub).map (Prod.fst ∘ fun pv => (k :: pv.1, pv.2))
        = ((flattenE sub).map Prod.fst).map (fun p => k :: p) := by
      rw [List.map_map]
      rfl
    refine ⟨?_, ih₂ hrest, ?_⟩
    · rw [hcomp]
      exact (ih₁ hsub).map (fun p q h => by injection h)
    · rw [hcomp]
      intro p hp hq
      rcases List.mem_map.mp hp with ⟨q, _, rfl⟩
      rcases List.mem_map.mp hq with ⟨pv, hpv, hfst⟩
      rcases flattenE_first_seg rest pv hpv with ⟨k', p', h1, h2⟩
      have h3 : k' :: p' = k :: q := by rw [← h1, hfst]
      injection h3 with ha _
      exact hk (ha ▸ h2)

/-- Under well-formedness every path segment is separator-free. -/
theorem flattenE_segs_sepFree (es : NDict β) (hwf : wfE es = true) :
    ∀ pv ∈ flattenE es, ∀ s ∈ pv.1, sepFree s = true := by
  induction es using flattenE.induct with
  | case1 => intro pv hpv; simp [flattenE] at hpv
  | case2 k v rest ih =>
    rcases wfE_cons_iff.mp hwf with ⟨hks, _, _, hrest⟩
    intro pv hpv
    simp only [flattenE] at hpv
    rcases List.mem_cons.mp hpv with he | hin
    · rw [he]
      intro s hs
      rw [List.mem_singleton] at hs
      rw [hs]
      exact hks
    · exact ih hrest pv hin
  | case3 k sub rest ih₁ ih₂ =>
    rcases wfE_cons_iff.mp hwf with ⟨hks, _, hnode, hrest⟩
    rcases wfN_node_iff.mp hnode with ⟨_, hsub⟩
    intro pv hpv
    simp only [flattenE] at hpv
    rcases List.mem_append.mp hpv with hin | hin
    · rcases List.mem_map.mp hin with ⟨pv', hpv', rfl⟩
      intro s hs
      rcases List.mem_cons.mp hs with he | hin'
      · rw [he]; exact hks
      · exact ih₁ hsub pv' hpv' s hin'
    · exact ih₂ hrest pv hin

/-- A nonempty well-formed mapping flattens to a nonempty list. -/
theorem flattenE_ne_nil (es : NDict β) (hne : es ≠ []) (hwf : wfE es = true) :
    flattenE es ≠ [] := by
  induction es using flattenE.induct with
  | case1 => exact absurd rfl hne
  | case2 k v rest ih => simp [flattenE]
  | case3 k sub rest ih₁ ih₂ =>
    rcases wfE_cons_iff.mp hwf with ⟨_, _, hnode, _⟩
    rcases wfN_node_iff.mp hnode with ⟨hsubne, hsub⟩
    simp only [flattenE]
    intro happ
    rcases List.append_eq_nil.mp happ with ⟨hmap, _⟩
    exact ih₁ hsubne hsub (List.map_eq_nil_iff.mp hmap)

/-- Overwriting an absent key is the identity on the entry list. -/
theorem map_update_id {acc : List (String × β)} {k : String} (x : β)
    (h : k ∉ acc.map Prod.fst) :
    acc.map (fun kv => if kv.1 = k then (k, x) else kv) = acc := by
  have hid : ∀ kv ∈ acc, (if kv.1 = k then (k, x) else kv) = id kv := by
    intro kv hkv
    rw [if_neg, id]
    intro he
    exact h (he ▸ List.mem_map_of_mem Prod.fst hkv)
  rw [List.map_congr_left hid, List.map_id]

theorem dictSet_append_self {acc : List (String × β)} {k : String} (w x : β)
    (h : k ∉ acc.map Prod.fst) :
    dictSet (acc ++ [(k, w)]) k x = acc ++ [(k, x)] := by
  have hmem : k ∈ (acc ++ [(k, w)]).map Prod.fst := by
    rw [List.map_append]
    simp
  rw [dictSet, if_pos hmem, List.map_append, map_update_id x h]
  simp

theorem dictGet_append_self {acc : List (String × β)} {k : String} (w : β)
    (h : k ∉ acc.map Prod.fst) :
    dictGet (acc ++ [(k, w)]) k = some w := by
  rw [dictGet_append, dictGet_eq_none_of_not_mem h]
  simp [dictGet_cons_self]

/-! ## The unflattening loop rebuilds the flattened mapping -/

theorem unflattenLoop_append (l₁ l₂ : List (List String × β)) :
    ∀ acc : NDict β, unflattenLoop acc (l₁ ++ l₂) =
      match unflattenLoop acc l₁ with
      | some m => unflattenLoop m l₂
      | none => none := by
  induction l₁ with
  | nil => intro acc; rfl
  | cons pv l₁' ih =>
    intro acc
    cases pv with
    | mk p v =>
      simp only [List.cons_append, unflattenLoop]
      cases insertPath acc p v with
      | none => rfl
      | some acc' => exact ih acc'

/-- Inserting a block of paths that all start with segment `k`, when `k` is
already the last key and holds a sub-dict, updates that sub-dict in place. -/
theorem unflattenLoop_block_present (k : String) (ps : List (List String × β)) :
    ∀ (t acc₀ : NDict β), k ∉ acc₀.map Prod.fst →
      (∀ pv ∈ ps, pv.1 ≠ []) →
      unflattenLoop (acc₀ ++ [(k, Nested.node t)])
          (ps.map (fun pv => (k :: pv.1, pv.2)))
        = (unflattenLoop t ps).map (fun t' => acc₀ ++ [(k, Nested.node t')]) := by
  induction ps with
  | nil => intro t acc₀ _ _; rfl
  | cons pv ps' ih =>
    intro t acc₀ hk hne
    cases pv with
    | mk p v =>
      have hpne : p ≠ [] := hne (p, v) (by simp)
      cases p with
      | nil => exact absurd rfl hpne
      | cons p₀ p'' =>
        simp only [List.map_cons, unflattenLoop, insertPath,
          dictGet_append_self (Nested.node t) hk]
        cases hins : insertPath t (p₀ :: p'') v with
        | none => rfl
        | some t' =>
          simp only [Option.map_some']
          rw [dictSet_append_self (Nested.node t) (Nested.node t') hk]
          exact ih t' acc₀ hk (fun pv' hpv' => hne pv' (by simp [hpv']))

/-- Inserting a block of paths that all start with a fresh segment `k`
creates the sub-dict at the end and then builds inside it. -/
theorem unflattenLoop_block_new (k : String) (ps : List (List String × β))
    (acc : NDict β) (hk : k ∉ acc.map Prod.fst) (hne : ps ≠ [])
    (hpne : ∀ pv ∈ ps, pv.1 ≠ []) :
    unflattenLoop acc (ps.map (fun pv => (k :: pv.1, pv.2)))
      = (unflattenLoop [] ps).map (fun t => acc ++ [(k, Nested.node t)]) := by
  cases ps with
  | nil => exact absurd rfl hne
  | cons pv ps' =>
    cases pv with
    | mk p v =>
      have hp : p ≠ [] := hpne (p, v) (by simp)
      cases p with
      | nil => exact absurd rfl hp
      | cons p₀ p'' =>
        simp only [List.map_cons, unflattenLoop, insertPath,
          dictGet_eq_none_of_not_mem hk]
        cases hins : insertPath ([] : NDict β) (p₀ :: p'') v with
        | none => rfl
        | some t₁ =>
          simp only [Option.map_some']
          exact unflattenLoop_block_present k ps' t₁ acc hk
            (fun pv' hpv' => hpne pv' (by simp [hpv']))

/-- The core round-trip invariant: replaying the flattening of a
well-formed mapping onto an accumulator with disjoint keys appends the
mapping to the accumulator, exactly. -/
theorem unflattenLoop_flattenE (es : NDict β) :
    ∀ acc : NDict β, wfE es = true →
      (∀ k ∈ es.map Prod.fst, k ∉ acc.map Prod.fst) →
      unflattenLoop acc (flattenE es) = some (acc ++ es) := by
  induction es using flattenE.induct with
  | case1 => intro acc _ _; simp [flattenE, unflattenLoop]
  | case2 k v rest ih =>
    intro acc hwf hdisj
    rcases wfE_cons_iff.mp hwf with ⟨_, hk, _, hrest⟩
    have hkacc : k ∉ acc.map Prod.fst := hdisj k (by simp)
    simp only [flattenE, unflattenLoop, insertPath, dictSet_of_not_mem _ hkacc]
    rw [ih (acc ++ [(k, Nested.leaf v)]) hrest ?_]
    · simp
    · intro k' hk'
      rw [List.map_append]
      simp only [List.mem_append, List.map_cons, List.map_nil, List.mem_singleton]
      rintro (hin | he)
      · exact hdisj k' (by simp [hk']) hin
      · exact hk (he ▸ hk')
  | case3 k sub rest ih₁ ih₂ =>
    intro acc hwf hdisj
    rcases wfE_cons_iff.mp hwf with ⟨_, hk, hnode, hrest⟩
    rcases wfN_node_iff.mp hnode with ⟨hsubne, hsub⟩
    have hkacc : k ∉ acc.map Prod.fst := hdisj k (by simp)
    simp only [flattenE]
    rw [unflattenLoop_append]
    rw [unflattenLoop_block_new k (flattenE sub) acc hkacc
      (flattenE_ne_nil sub hsubne hsub) (flattenE_paths_ne_nil sub)]
    rw [ih₁ [] hsub (by simp)]
    simp only [List.nil_append, Option.map_some']
    rw [ih₂ (acc ++ [(k, Nested.node sub)]) hrest ?_]
    · simp
    · intro k' hk'
      rw [List.map_append]
      simp only [List.mem_append, List.map_cons, List.map_nil, List.mem_singleton]
      rintro (hin | he)
      · exact hdisj k' (by simp [hk']) hin
      · exact hk (he ▸ hk')

/-! ## Claim C1: the flatten/unflatten round trip -/

/-- The joined flat keys of a well-formed mapping are pairwise distinct. -/
theorem flatten_wf_joined_nodup (x : NDict β) (hwf : wfE x = true) :
    (((flattenE x).map (fun pv => (joinKey pv.1, pv.2))).map Prod.fst).Nodup := by
  rw [List.map_map]
  have hcomp : (flattenE x).map (Prod.fst ∘ fun pv => (joinKey pv.1, pv.2))
      = ((flattenE x).map Prod.fst).map joinKey := by
    rw [List.map_map]
    rfl
  rw [hcomp]
  apply List.Nodup.map_on ?_ (flattenE_paths_nodup x hwf)
  intro p hp q hq hjoin
  rcases List.mem_map.mp hp with ⟨pv, hpv, rfl⟩
  rcases List.mem_map.mp hq with ⟨qv, hqv, rfl⟩
  have hps : splitKey (joinKey pv.1) = pv.1 :=
    splitKey_joinKey pv.1 (flattenE_paths_ne_nil x pv hpv)
      (fun s hs => flattenE_segs_sepFree x hwf pv hpv s hs)
  have hqs : splitKey (joinKey qv.1) = qv.1 :=
    splitKey_joinKey qv.1 (flattenE_paths_ne_nil x qv hqv)
      (fun s hs => flattenE_segs_sepFree x hwf qv hqv s hs)
  rw [← hps, ← hqs, hjoin]

/-- C1 (amended).  For every nested numeric mapping `x` that is a faithful
image of a Python dict (distinct keys at every level) with no `'.'` inside
any key and no empty sub-mapping, `unflatten_dict (flatten_dict x)`
reconstructs `x` exactly, entry order included. -/
theorem flatten_unflatten_roundtrip (x : NDict ℚ) (hwf : wfE x = true) :
    unflatten_dict (flatten_dict x) = some x := by
  unfold flatten_dict unflatten_dict
  rw [dictFromPairs_of_nodup (flatten_wf_joined_nodup x hwf)]
  rw [List.map_map]
  have hsplit : ∀ pv ∈ flattenE x,
      ((fun kv => (splitKey kv.1, kv.2)) ∘ fun pv => (joinKey pv.1, pv.2)) pv = id pv := by
    intro pv hpv
    show (splitKey (joinKey pv.1), pv.2) = pv
    rw [splitKey_joinKey pv.1 (flattenE_paths_ne_nil x pv hpv)
      (fun s hs => flattenE_segs_sepFree x hwf pv hpv s hs)]
  rw [List.map_congr_left hsplit, List.map_id]
  have h := unflattenLoop_flattenE x [] hwf (by simp)
  rw [h]
  simp

/-- Witness for C1 on a concrete well-formed nested mapping. -/
theorem flatten_unflatten_roundtrip_witness :
    wfE [("a", Nested.leaf (1 : ℚ)), ("b", Nested.node [("c", Nested.leaf 2)])] = true ∧
    unflatten_dict (flatten_dict
        [("a", Nested.leaf (1 : ℚ)), ("b", Nested.node [("c", Nested.leaf 2)])])
      = some [("a", Nested.leaf 1), ("b", Nested.node [("c", Nested.leaf 2)])] :=
  ⟨by decide, flatten_unflatten_roundtrip _ (by decide)⟩

mutual
/-- Python's `==` on nested dicts: recursive equality of key sets and
values, insensitive to entry order. -/
def pyEqN [DecidableEq β] : Nested β → Nested β → Bool
  | .leaf v, .leaf w => decide (v = w)
  | .node es₁, .node es₂ =>
      pyEqE es₁ es₂ && es₂.all (fun kv => (es₁.map Prod.fst).contains kv.1)
  | _, _ => false

def pyEqE [DecidableEq β] : NDict β → NDict β → Bool
  | [], _ => true
  | (k, t) :: rest, es₂ =>
      (match dictGet es₂ k with
       | some t₂ => pyEqN t t₂
       | none => false) && pyEqE rest es₂
end

/-- C1 counterexample.  For the nested numeric mapping `{"a.b": 1}` — all
leaves numeric — the round trip does not return an equal mapping:
flattening joins with `'.'` and unflattening re-splits, so the result is
`{"a": {"b": 1}}`, which differs from the input even under Python's
order-insensitive `==`. -/
theorem flatten_unflatten_roundtrip_counterexample :
    unflatten_dict (flatten_dict [("a.b", Nested.leaf (1 : ℚ))])
      = some [("a", Nested.node [("b", Nested.leaf 1)])] ∧
    pyEqE [("a", Nested.node [("b", Nested.leaf (1 : ℚ))])]
        [("a.b", Nested.leaf 1)] = false := by
  constructor
  · simp [flatten_dict, flattenE, dictFromPairs, dictSet, joinKey, joinChars,
      unflatten_dict, unflattenLoop, insertPath, splitKey, splitCharsAux, dictGet,
      String.toList]
  · decide

/-! ## Pointwise semantics of path insertion (towards claim C7) -/

theorem leafAt_nil_dict (r : List String) : leafAt ([] : NDict β) r = none := by
  match r with
  | [] => rfl
  | [k] => rfl
  | k :: k' :: p => rfl

/-- The function `leafAt` only inspects the entry at the head segment. -/
theorem leafAt_cons_eq (d₁ d₂ : NDict β) (k : String) (r : List String)
    (h : dictGet d₁ k = dictGet d₂ k) : leafAt d₁ (k :: r) = leafAt d₂ (k :: r) := by
  match r with
  | [] => simp only [leafAt, h]
  | k' :: p => simp only [leafAt, h]

theorem leafAt_cons_node {d : NDict β} {k : String} {sub : NDict β}
    (h : dictGet d k = some (Nested.node sub)) :
    ∀ r, leafAt d (k :: r) = leafAt sub r := by
  intro r
  match r with
  | [] => simp only [leafAt, h]
  | k' :: p => simp only [leafAt, h]

theorem leafAt_cons_leaf {d : NDict β} {k : String} {w : β}
    (h : dictGet d k = some (Nested.leaf w)) :
    ∀ r, leafAt d (k :: r) = if r = [] then some w else none := by
  intro r
  match r with
  | [] =>
    rw [if_pos rfl]
    simp only [leafAt, h]
  | k' :: p =>
    rw [if_neg (List.cons_ne_nil k' p)]
    simp only [leafAt, h]

theorem leafAt_cons_none {d : NDict β} {k : String}
    (h : dictGet d k = none) : ∀ r, leafAt d (k :: r) = none := by
  intro r
  match r with
  | [] => simp only [leafAt, h]
  | k' :: p => simp only [leafAt, h]

theorem dictGet_isSome_of_mem {d : List (String × β)} {k : String}
    (h : k ∈ d.map Prod.fst) : (dictGet d k).isSome = true := by
  induction d with
  | nil => simp at h
  | cons kv rest ih =>
    cases kv with
    | mk a b =>
      by_cases hk : a = k
      · subst hk
        rw [dictGet_cons_self]
        rfl
      · rw [dictGet_cons_ne hk]
        apply ih
        rw [List.map_cons, List.mem_cons] at h
        rcases h with he | hin
        · exact absurd he.symm hk
        · exact hin

theorem not_mem_of_dictGet_eq_none {d : List (String × β)} {k : String}
    (h : dictGet d k = none) : k ∉ d.map Prod.fst := by
  intro hm
  have := dictGet_isSome_of_mem hm
  rw [h] at this
  cases this

/-- Insertion of one fresh, independent path: it succeeds and changes
`leafAt` at exactly that path. -/
theorem insertPath_leafAt :
    ∀ (q : List String) (d : NDict β) (v : β), q ≠ [] →
      (∀ r, (leafAt d r).isSome = true → ¬ Below r q ∧ ¬ Below q r) →
      ∃ d', insertPath d q v = some d' ∧
        ∀ r, leafAt d' r = if r = q then some v else leafAt d r := by
  intro q
  match q with
  | [] => intro d v hq _; exact absurd rfl hq
  | [k] =>
    intro d v _ hfresh
    refine ⟨dictSet d k (Nested.leaf v), rfl, ?_⟩
    intro r
    match r with
    | [] => simp [leafAt]
    | [k'] =>
      by_cases hk : k' = k
      · subst hk
        rw [if_pos rfl]
        show leafAt (dictSet d k' (Nested.leaf v)) [k'] = some v
        simp only [leafAt, dictGet_dictSet_self]
      · rw [if_neg (by simp [hk])]
        exact leafAt_cons_eq _ _ k' [] (dictGet_dictSet_ne (fun he => hk he.symm))
    | k' :: k'' :: p =>
      rw [if_neg (by simp)]
      by_cases hk : k' = k
      · subst hk
        have h1 : leafAt (dictSet d k' (Nested.leaf v)) (k' :: k'' :: p) = none :=
          leafAt_cons_leaf dictGet_dictSet_self (k'' :: p) |>.trans (by simp)
        rw [h1]
        by_cases h2 : (leafAt d (k' :: k'' :: p)).isSome = true
        · exact absurd ⟨k'' :: p, rfl⟩ (hfresh _ h2).2
        · cases h3 : leafAt d (k' :: k'' :: p) with
          | none => rfl
          | some w => rw [h3] at h2; exact absurd rfl h2
      · exact leafAt_cons_eq (dictSet d k (Nested.leaf v)) d k' (k'' :: p)
          (dictGet_dictSet_ne (fun he => hk he.symm))
  | k :: k' :: p =>
    intro d v _ hfresh
    match hget : dictGet d k with
    | some (Nested.leaf w) =>
      exfalso
      have hs : (leafAt d [k]).isSome = true := by
        simp only [leafAt, hget]
        rfl
      exact (hfresh [k] hs).1 ⟨k' :: p, rfl⟩
    | some (Nested.node sub) =>
      have hsub := insertPath_leafAt (k' :: p) sub v (by simp) ?_
      · rcases hsub with ⟨sub', hins, hpt⟩
        refine ⟨dictSet d k (Nested.node sub'), ?_, ?_⟩
        · simp only [insertPath, hget, hins, Option.map_some']
        · intro r
          match r with
          | [] => simp [leafAt]
          | r₀ :: rr =>
            by_cases hk : r₀ = k
            · subst hk
              have hg' : dictGet (dictSet d r₀ (Nested.node sub')) r₀
                  = some (Nested.node sub') := dictGet_dictSet_self
              rw [leafAt_cons_node hg' rr, hpt rr, leafAt_cons_node hget rr]
              by_cases hrr : rr = k' :: p
              · rw [if_pos hrr, if_pos (by rw [hrr])]
              · rw [if_neg hrr, if_neg (by simp [hrr])]
            · have hg' : dictGet (dictSet d k (Nested.node sub')) r₀ = dictGet d r₀ :=
                dictGet_dictSet_ne (fun he => hk he.symm)
              rw [leafAt_cons_eq _ d r₀ rr hg', if_neg (by simp [hk])]
      · intro r hr
        have hda : leafAt d (k :: r) = leafAt sub r := leafAt_cons_node hget r
        have := hfresh (k :: r) (by rw [hda]; exact hr)
        exact ⟨fun hb => this.1 (below_cons.mpr hb), fun hb => this.2 (below_cons.mpr hb)⟩
    | none =>
      have hsub := insertPath_leafAt (k' :: p) [] v (by simp)
        (fun r hr => by rw [leafAt_nil_dict] at hr; cases hr)
      rcases hsub with ⟨sub', hins, hpt⟩
      have hknot : k ∉ d.map Prod.fst := not_mem_of_dictGet_eq_none hget
      refine ⟨d ++ [(k, Nested.node sub')], ?_, ?_⟩
      · simp only [insertPath, hget, hins, Option.map_some']
      · intro r
        match r with
        | [] => simp [leafAt]
        | r₀ :: rr =>
          by_cases hk : r₀ = k
          · subst hk
            have hg' : dictGet (d ++ [(r₀, Nested.node sub')]) r₀
                = some (Nested.node sub') := dictGet_append_self _ hknot
            rw [leafAt_cons_node hg' rr, hpt rr, leafAt_nil_dict rr,
              leafAt_cons_none hget rr]
            by_cases hrr : rr = k' :: p
            · rw [if_pos hrr, if_pos (by rw [hrr])]
            · rw [if_neg hrr, if_neg (by simp [hrr])]
          · have hg' : dictGet (d ++ [(k, Nested.node sub')]) r₀ = dictGet d r₀ := by
              rw [dictGet_append]
              have hne : ¬ k = r₀ := fun he => hk he.symm
              have hnone : dictGet [(k, Nested.node sub')] r₀ = none := by
                simp [dictGet, if_neg hne]
              rw [hnone, option_or_none]
            rw [leafAt_cons_eq _ d r₀ rr hg', if_neg (by simp [hk])]

/-- First-match lookup among (path, value) pairs. -/
def pathLookup (ps : List (List String × β)) (r : List String) : Option β :=
  match ps with
  | [] => none
  | (p, v) :: rest => if p = r then some v else pathLookup rest r

theorem pathLookup_eq_none {ps : List (List String × β)} {r : List String}
    (h : ∀ pv ∈ ps, pv.1 ≠ r) : pathLookup ps r = none := by
  induction ps with
  | nil => rfl
  | cons pv rest ih =>
    cases pv with
    | mk p v =>
      simp only [pathLookup, if_neg (h (p, v) (by simp))]
      exact ih (fun pv' hpv' => h pv' (by simp [hpv']))

/-- Mutual independence of a list of paths: no one is an initial segment
of another (in particular all are distinct). -/
def PathsIndep (ps : List (List String × β)) : Prop :=
  List.Pairwise (fun pv qv => ¬ Below pv.1 qv.1 ∧ ¬ Below qv.1 pv.1) ps

/-- Replaying a list of fresh, mutually independent paths onto an
accumulator succeeds and gives exactly the lookups of the list, falling
back to the accumulator. -/
theorem unflattenLoop_leafAt (ps : List (List String × β)) :
    ∀ acc : NDict β,
      (∀ pv ∈ ps, pv.1 ≠ []) →
      (∀ pv ∈ ps, ∀ r, (leafAt acc r).isSome = true →
        ¬ Below r pv.1 ∧ ¬ Below pv.1 r) →
      PathsIndep ps →
      ∃ t, unflattenLoop acc ps = some t ∧
        ∀ r, leafAt t r = ((pathLookup ps r).or (leafAt acc r)) := by
  induction ps with
  | nil =>
    intro acc _ _ _
    exact ⟨acc, rfl, fun r => rfl⟩
  | cons pv ps' ih =>
    intro acc hne hfresh hindep
    cases pv with
    | mk p v =>
      rcases insertPath_leafAt p acc v (hne (p, v) (by simp))
        (fun r hr => hfresh (p, v) (by simp) r hr) with ⟨acc', hins, hpt⟩
      unfold PathsIndep at hindep
      rw [List.pairwise_cons] at hindep
      have hfresh' : ∀ pv' ∈ ps', ∀ r, (leafAt acc' r).isSome = true →
          ¬ Below r pv'.1 ∧ ¬ Below pv'.1 r := by
        intro pv' hpv' r hr
        rw [hpt r] at hr
        by_cases hrp : r = p
        · subst hrp
          exact ⟨(hindep.1 pv' hpv').1, (hindep.1 pv' hpv').2⟩
        · rw [if_neg hrp] at hr
          exact hfresh pv' (by simp [hpv']) r hr
      rcases ih acc' (fun pv' hpv' => hne pv' (by simp [hpv'])) hfresh' hindep.2
        with ⟨t, hloop, hsem⟩
      refine ⟨t, ?_, ?_⟩
      · simp only [unflattenLoop, hins, hloop]
      · intro r
        rw [hsem r, hpt r]
        by_cases hrp : r = p
        · subst hrp
          have hnone : pathLookup ps' r = none := by
            apply pathLookup_eq_none
            intro qv hqv he
            exact (hindep.1 qv hqv).1 (he ▸ below_refl qv.1)
          have h1 : pathLookup ((r, v) :: ps') r = some v := by
            simp [pathLookup]
          rw [hnone, h1, if_pos rfl]
          rfl
        · have hne2 : p ≠ r := fun he => hrp he.symm
          simp only [pathLookup, if_neg hne2, if_neg hrp]

/-- The flattened paths of a well-formed mapping are mutually independent:
none is an initial segment of another. -/
theorem flattenE_paths_indep (es : NDict β) (hwf : wfE es = true) :
    PathsIndep (flattenE es) := by
  unfold PathsIndep
  induction es using flattenE.induct with
  | case1 =>
    simp only [flattenE]
    exact List.Pairwise.nil
  | case2 k v rest ih =>
    rcases wfE_cons_iff.mp hwf with ⟨_, hk, _, hrest⟩
    simp only [flattenE]
    rw [List.pairwise_cons]
    refine ⟨?_, ih hrest⟩
    intro qv hqv
    rcases flattenE_first_seg rest qv hqv with ⟨k', p', h1, h2⟩
    have hne : k ≠ k' := fun he => hk (he ▸ h2)
    constructor
    · rw [h1]
      rintro ⟨s, hs⟩
      simp only [List.cons_append, List.cons.injEq] at hs
      exact hne hs.1.symm
    · rw [h1]
      rintro ⟨s, hs⟩
      simp only [List.cons_append, List.cons.injEq] at hs
      exact hne hs.1
  | case3 k sub rest ih₁ ih₂ =>
    rcases wfE_cons_iff.mp hwf with ⟨_, hk, hnode, hrest⟩
    rcases wfN_node_iff.mp hnode with ⟨_, hsub⟩
    simp only [flattenE]
    rw [List.pairwise_append]
    refine ⟨?_, ih₂ hrest, ?_⟩
    · rw [List.pairwise_map]
      apply List.Pairwise.imp ?_ (ih₁ hsub)
      intro pv qv hpq
      exact ⟨fun hb => hpq.1 (below_cons.mp hb), fun hb => hpq.2 (below_cons.mp hb)⟩
    · intro pv hpv qv hqv
      rcases List.mem_map.mp hpv with ⟨pv', _, rfl⟩
      rcases flattenE_first_seg rest qv hqv with ⟨k', p', h1, h2⟩
      have hne : k ≠ k' := fun he => hk (he ▸ h2)
      constructor
      · rw [h1]
        rintro ⟨s, hs⟩
        simp only [List.cons_append, List.cons.injEq] at hs
        exact hne hs.1.symm
      · rw [h1]
        rintro ⟨s, hs⟩
        simp only [List.cons_append, List.cons.injEq] at hs
        exact hne hs.1

/-! ## Permutation bookkeeping -/

theorem pathLookup_perm {ps₁ ps₂ : List (List String × β)} (h : ps₁.Perm ps₂)
    (hn : (ps₁.map Prod.fst).Nodup) :
    ∀ r, pathLookup ps₁ r = pathLookup ps₂ r := by
  induction h with
  | nil => intro r; rfl
  | cons pv h ih =>
    intro r
    cases pv with
    | mk p v =>
      rw [List.map_cons, List.nodup_cons] at hn
      by_cases hp : p = r
      · simp only [pathLookup, if_pos hp]
      · simp only [pathLookup, if_neg hp, ih hn.2 r]
  | swap pv qv l =>
    intro r
    cases pv with
    | mk p v =>
      cases qv with
      | mk q w =>
        simp only [List.map_cons, List.nodup_cons, List.mem_cons] at hn
        push_neg at hn
        have hpq : q ≠ p := hn.1.1
        by_cases hp : p = r
        · subst hp
          simp only [pathLookup, if_pos rfl, if_neg hpq]
        · by_cases hq : q = r
          · subst hq
            simp only [pathLookup, if_pos rfl, if_neg hp]
          · simp only [pathLookup, if_neg hp, if_neg hq]
  | trans h₁ h₂ ih₁ ih₂ =>
    intro r
    have hn₂ := (h₁.map Prod.fst).nodup hn
    rw [ih₁ hn r, ih₂ hn₂ r]

theorem splitKey_ne_nil (s : String) : splitKey s ≠ [] := by
  unfold splitKey
  intro h
  exact splitCharsAux_ne_nil s.toList [] (List.map_eq_nil_iff.mp h)

theorem zip_map_self (K : List String) (g : String → γ) :
    K.zip (K.map g) = K.map (fun k => (k, g k)) := by
  induction K with
  | nil => rfl
  | cons k K' ih => simp only [List.map_cons, List.zip_cons_cons, ih]

/-- A zip with distinct keys is recovered by looking up its own keys. -/
theorem zip_eq_map_dictGet {K : List String} {x : List γ} (z : γ)
    (hn : K.Nodup) (hlen : x.length = K.length) :
    K.map (fun k => (k, (dictGet (K.zip x) k).getD z)) = K.zip x := by
  induction K generalizing x with
  | nil => rfl
  | cons k K' ih =>
    cases x with
    | nil => simp at hlen
    | cons v x' =>
      rw [List.nodup_cons] at hn
      simp only [List.zip_cons_cons, List.map_cons, dictGet_cons_self]
      have hhead : (k, (some v).getD z) = (k, v) := rfl
      rw [hhead]
      congr 1
      have hcong : ∀ k' ∈ K',
          (fun k' => (k', (dictGet ((k, v) :: K'.zip x') k').getD z)) k'
            = (fun k' => (k', (dictGet (K'.zip x') k').getD z)) k' := by
        intro k' hk'
        have hne : k ≠ k' := fun he => hn.1 (he ▸ hk')
        simp only [dictGet_cons_ne hne]
      rw [List.map_congr_left hcong]
      exact ih hn.2 (by simpa using hlen)

/-- One flattening block per top-level entry. -/
def flattenBlock (kv : String × Nested β) : List (List String × β) :=
  match kv with
  | (k, .leaf v) => [([k], v)]
  | (k, .node sub) => (flattenE sub).map (fun pv => (k :: pv.1, pv.2))

theorem flattenE_eq_flatten_map (es : NDict β) :
    flattenE es = (es.map flattenBlock).flatten := by
  induction es using flattenE.induct with
  | case1 => simp [flattenE]
  | case2 k v rest ih => simp [flattenE, flattenBlock, ih]
  | case3 k sub rest ih₁ ih₂ => simp [flattenE, flattenBlock, ih₂]

/-- Flattening maps top-level reordering to flat-list reordering. -/
theorem flattenE_perm {es₁ es₂ : NDict β} (h : es₂.Perm es₁) :
    (flattenE es₂).Perm (flattenE es₁) := by
  rw [flattenE_eq_flatten_map, flattenE_eq_flatten_map]
  exact (h.map flattenBlock).flatten

/-- Mutual independence of a list of flat keys, after splitting. -/
def keysIndep (K : List String) : Prop :=
  List.Pairwise (fun a b =>
    ¬ Below (splitKey a) (splitKey b) ∧ ¬ Below (splitKey b) (splitKey a)) K

theorem keysIndep_of_perm {K₁ K₂ : List String} (h : K₂.Perm K₁)
    (hind : keysIndep K₁) : keysIndep K₂ := by
  unfold keysIndep at hind ⊢
  rw [h.pairwise_iff (fun hab => ⟨hab.2, hab.1⟩)]
  exact hind

/-- The flat keys produced by flattening a well-formed mapping are
mutually independent. -/
theorem flatten_keys_indep (init : NDict β) (hwf : wfE init = true) :
    keysIndep ((flatten_dict init).map Prod.fst) := by
  unfold keysIndep
  unfold flatten_dict
  rw [dictFromPairs_of_nodup (flatten_wf_joined_nodup init hwf), List.map_map]
  rw [List.pairwise_map]
  have hpaths := flattenE_paths_indep init hwf
  unfold PathsIndep at hpaths
  refine List.Pairwise.imp_of_mem ?_ hpaths
  intro pv qv hpv hqv hpq
  have hps : splitKey (joinKey pv.1) = pv.1 :=
    splitKey_joinKey pv.1 (flattenE_paths_ne_nil init pv hpv)
      (fun s hs => flattenE_segs_sepFree init hwf pv hpv s hs)
  have hqs : splitKey (joinKey qv.1) = qv.1 :=
    splitKey_joinKey qv.1 (flattenE_paths_ne_nil init qv hqv)
      (fun s hs => flattenE_segs_sepFree init hwf qv hqv s hs)
  show ¬ Below (splitKey (joinKey pv.1)) (splitKey (joinKey qv.1)) ∧
    ¬ Below (splitKey (joinKey qv.1)) (splitKey (joinKey pv.1))
  rw [hps, hqs]
  exact hpq

/-- Unflattening a flat vector zipped against mutually independent keys
succeeds, and the leaves are exactly the keyed values. -/
theorem unflatten_zip_leafAt {γ : Type u} (K : List String) (x : List γ)
    (hn : K.Nodup) (hlen : x.length = K.length) (hind : keysIndep K) :
    ∃ d, unflatten_dict (dictFromPairs (K.zip x)) = some d ∧
      ∀ r, leafAt d r
        = pathLookup ((K.zip x).map (fun kv => (splitKey kv.1, kv.2))) r := by
  have hfst : (K.zip x).map Prod.fst = K :=
    List.map_fst_zip K x (le_of_eq hlen.symm)
  have hzn : ((K.zip x).map Prod.fst).Nodup := by rw [hfst]; exact hn
  unfold unflatten_dict
  rw [dictFromPairs_of_nodup hzn]
  have hne : ∀ pv ∈ (K.zip x).map (fun kv => (splitKey kv.1, kv.2)), pv.1 ≠ [] := by
    intro pv hpv
    rcases List.mem_map.mp hpv with ⟨kv, _, rfl⟩
    exact splitKey_ne_nil kv.1
  have hindep : PathsIndep ((K.zip x).map (fun kv => (splitKey kv.1, kv.2))) := by
    unfold PathsIndep
    rw [List.pairwise_map]
    unfold keysIndep at hind
    have hK : List.Pairwise (fun a b =>
        ¬ Below (splitKey a) (splitKey b) ∧ ¬ Below (splitKey b) (splitKey a))
        ((K.zip x).map Prod.fst) := by
      rw [hfst]
      exact hind
    rw [List.pairwise_map] at hK
    exact hK
  rcases unflattenLoop_leafAt ((K.zip x).map (fun kv => (splitKey kv.1, kv.2))) []
    hne (fun pv _ r hr => by rw [leafAt_nil_dict] at hr; cases hr) hindep
    with ⟨d, hloop, hsem⟩
  refine ⟨d, hloop, ?_⟩
  intro r
  rw [hsem r, leafAt_nil_dict, option_or_none]

/-- Unflattening two keyed vectors that are reorderings of one another
gives nested mappings with identical leaves at every path. -/
theorem unflatten_zip_perm_leafAt {γ : Type u} (K₁ K₂ : List String)
    (x₁ x₂ : List γ) (hn₁ : K₁.Nodup) (hperm : K₂.Perm K₁)
    (hlen₁ : x₁.length = K₁.length) (hlen₂ : x₂.length = K₂.length)
    (hind₁ : keysIndep K₁)
    (hzip : (K₂.zip x₂).Perm (K₁.zip x₁)) :
    ∃ d₁ d₂, unflatten_dict (dictFromPairs (K₁.zip x₁)) = some d₁ ∧
      unflatten_dict (dictFromPairs (K₂.zip x₂)) = some d₂ ∧
      ∀ r, leafAt d₂ r = leafAt d₁ r := by
  have hn₂ : K₂.Nodup := hperm.symm.nodup hn₁
  have hind₂ : keysIndep K₂ := keysIndep_of_perm hperm hind₁
  rcases unflatten_zip_leafAt K₁ x₁ hn₁ hlen₁ hind₁ with ⟨d₁, h₁, hsem₁⟩
  rcases unflatten_zip_leafAt K₂ x₂ hn₂ hlen₂ hind₂ with ⟨d₂, h₂, hsem₂⟩
  refine ⟨d₁, d₂, h₁, h₂, ?_⟩
  intro r
  rw [hsem₁ r, hsem₂ r]
  apply pathLookup_perm (hzip.map (fun kv => (splitKey kv.1, kv.2)))
  have hfst : ((K₂.zip x₂).map (fun kv => (splitKey kv.1, kv.2))).map Prod.fst
      = K₂.map splitKey := by
    rw [List.map_map]
    have h2 : (K₂.zip x₂).map (Prod.fst ∘ fun kv => (splitKey kv.1, kv.2))
        = ((K₂.zip x₂).map Prod.fst).map splitKey := by
      rw [List.map_map]
      rfl
    rw [h2, List.map_fst_zip K₂ x₂ (le_of_eq hlen₂.symm)]
  rw [hfst]
  exact hn₂.map splitKey_injective

/-- Rewriting a zip as a keyed map and transporting it along a key
reordering. -/
theorem zip_perm_of_keys_perm {γ : Type u} (K₁ K₂ : List String)
    (g : String → γ) (x : List γ) (hperm : K₂.Perm K₁)
    (hx : K₂.zip x = K₂.map (fun k => (k, g k))) :
    (K₂.zip x).Perm (K₁.zip (K₁.map g)) := by
  rw [hx, zip_map_self]
  exact hperm.map _

/-! ## Claim C7: reordering invariance of a fit call -/

/-- The backend treats coordinates symmetrically and deterministically: on
two minimization problems that are coordinate reorderings of one another
(same initial point, bounds and objective as key-indexed data), it returns
best iterates that are the same reordering of one another.  This is the
determinism/symmetry assumption the spec's reordering-invariance property
makes about `scipy.optimize.minimize`. -/
def KeyedEquivariant (m : Minimizer) : Prop :=
  ∀ (K₁ K₂ : List String) (f₁ f₂ : List ℚ → Option ℚ) (x₁ x₂ : List ℚ)
    (b₁ b₂ : Option (List BoundPair)),
    K₁.Nodup → K₂.Perm K₁ →
    x₁.length = K₁.length → x₂.length = K₂.length →
    (K₂.zip x₂).Perm (K₁.zip x₁) →
    ((b₁ = none ∧ b₂ = none) ∨
      (∃ l₁ l₂, b₁ = some l₁ ∧ b₂ = some l₂ ∧ l₁.length = K₁.length ∧
        l₂.length = K₂.length ∧ (K₂.zip l₂).Perm (K₁.zip l₁))) →
    (∀ x, x.length = K₂.length →
      f₂ x = f₁ (K₁.map (fun k => (dictGet (K₂.zip x) k).getD 0))) →
    (m f₁ x₁ b₁).x.length = K₁.length ∧ (m f₂ x₂ b₂).x.length = K₂.length ∧
    (K₂.zip (m f₂ x₂ b₂).x).Perm (K₁.zip (m f₁ x₁ b₁).x)

/-- C7.  Reordering invariance: permuting the insertion order of the
well-formed initial nested parameter mapping before a fit yields the same
nested optimum — the two returned mappings carry the same value at every
parameter path, only the internal key ordering differs — provided the
backend is coordinate-symmetric (`KeyedEquivariant`) and the objective
reads its parameters as a mapping (is insensitive to dict entry order). -/
theorem fit_scipy_reordering_invariance (minimize : Minimizer)
    (ob : NDict ℚ → ℚ) (init₁ init₂ : NDict ℚ) (bounds : NDict BoundPair)
    (hE : KeyedEquivariant minimize)
    (hob : ∀ d₁ d₂ : NDict ℚ, (∀ r, leafAt d₂ r = leafAt d₁ r) → ob d₂ = ob d₁)
    (hwf : wfE init₁ = true)
    (hperm : init₂.Perm init₁) :
    ∃ d₁ d₂, (fit_scipy minimize ob init₁ bounds).optParams = some d₁ ∧
      (fit_scipy minimize ob init₂ bounds).optParams = some d₂ ∧
      ∀ r, leafAt d₂ r = leafAt d₁ r := by
  have hnodup₁ : ((flatten_dict init₁).map Prod.fst).Nodup :=
    dictFromPairs_nodup_keys _
  have hnodup₂ : ((flatten_dict init₂).map Prod.fst).Nodup :=
    dictFromPairs_nodup_keys _
  -- the two flat dicts are reorderings of one another
  have hjnodup₁ := flatten_wf_joined_nodup init₁ hwf
  have hmapperm : ((flattenE init₂).map (fun pv => (joinKey pv.1, pv.2))).Perm
      ((flattenE init₁).map (fun pv => (joinKey pv.1, pv.2))) :=
    (flattenE_perm hperm).map _
  have hjnodup₂ : (((flattenE init₂).map (fun pv => (joinKey pv.1, pv.2))).map
      Prod.fst).Nodup :=
    ((hmapperm.map Prod.fst).symm).nodup hjnodup₁
  have hflat₁ : flatten_dict init₁
      = (flattenE init₁).map (fun pv => (joinKey pv.1, pv.2)) :=
    dictFromPairs_of_nodup hjnodup₁
  have hflat₂ : flatten_dict init₂
      = (flattenE init₂).map (fun pv => (joinKey pv.1, pv.2)) :=
    dictFromPairs_of_nodup hjnodup₂
  have hflatperm : (flatten_dict init₂).Perm (flatten_dict init₁) := by
    rw [hflat₁, hflat₂]
    exact hmapperm
  have hKperm : ((flatten_dict init₂).map Prod.fst).Perm
      ((flatten_dict init₁).map Prod.fst) := hflatperm.map Prod.fst
  have hind₁ : keysIndep ((flatten_dict init₁).map Prod.fst) :=
    flatten_keys_indep init₁ hwf
  -- x0 is the value column of the flat dict
  have hx0₁ : ((flatten_dict init₁).map Prod.fst).map
      (fun k => (dictGet (flatten_dict init₁) k).getD 0)
      = (flatten_dict init₁).map Prod.snd := map_dictGet_self hnodup₁ 0
  have hx0₂ : ((flatten_dict init₂).map Prod.fst).map
      (fun k => (dictGet (flatten_dict init₂) k).getD 0)
      = (flatten_dict init₂).map Prod.snd := map_dictGet_self hnodup₂ 0
  have hzipx0₁ : ((flatten_dict init₁).map Prod.fst).zip
      ((flatten_dict init₁).map Prod.snd) = flatten_dict init₁ := by
    exact (List.zip_of_prod rfl rfl).symm
  have hzipx0₂ : ((flatten_dict init₂).map Prod.fst).zip
      ((flatten_dict init₂).map Prod.snd) = flatten_dict init₂ := by
    exact (List.zip_of_prod rfl rfl).symm
  -- instantiate backend equivariance
  have hEres := hE ((flatten_dict init₁).map Prod.fst)
    ((flatten_dict init₂).map Prod.fst)
    (fit_scipy minimize ob init₁ bounds).adapter
    (fit_scipy minimize ob init₂ bounds).adapter
    (fit_scipy minimize ob init₁ bounds).x0
    (fit_scipy minimize ob init₂ bounds).x0
    (fit_scipy minimize ob init₁ bounds).boundsArr
    (fit_scipy minimize ob init₂ bounds).boundsArr
    hnodup₁ hKperm ?_ ?_ ?_ ?_ ?_
  · -- use the equivariance conclusion on the returned best iterates
    rcases hEres with ⟨hlen₁, hlen₂, hresperm⟩
    rcases unflatten_zip_perm_leafAt ((flatten_dict init₁).map Prod.fst)
      ((flatten_dict init₂).map Prod.fst)
      (fit_scipy minimize ob init₁ bounds).res.x
      (fit_scipy minimize ob init₂ bounds).res.x
      hnodup₁ hKperm hlen₁ hlen₂ hind₁ hresperm with ⟨d₁, d₂, h₁, h₂, hleaf⟩
    exact ⟨d₁, d₂, h₁, h₂, hleaf⟩
  · -- |x0₁| = |keys₁|
    show (((flatten_dict init₁).map Prod.fst).map _).length = _
    rw [List.length_map]
  · show (((flatten_dict init₂).map Prod.fst).map _).length = _
    rw [List.length_map]
  · -- the zipped initial vectors are reorderings of one another
    show (((flatten_dict init₂).map Prod.fst).zip
        (((flatten_dict init₂).map Prod.fst).map
          (fun k => (dictGet (flatten_dict init₂) k).getD 0))).Perm
      (((flatten_dict init₁).map Prod.fst).zip
        (((flatten_dict init₁).map Prod.fst).map
          (fun k => (dictGet (flatten_dict init₁) k).getD 0)))
    rw [hx0₁, hx0₂, hzipx0₁, hzipx0₂]
    exact hflatperm
  · -- the aligned bounds arrays are reorderings of one another
    by_cases hnil : (flatten_dict init₁).map Prod.fst = []
    · left
      have hnil₂ : (flatten_dict init₂).map Prod.fst = [] :=
        List.eq_nil_of_length_eq_zero (by rw [hKperm.length_eq, hnil]; rfl)
      constructor
      · show (if (((flatten_dict init₁).map Prod.fst).map
            (fun k => bounds_for (flatten_dict bounds) k)).length = 0
            then none else some _) = none
        rw [hnil]
        rfl
      · show (if (((flatten_dict init₂).map Prod.fst).map
            (fun k => bounds_for (flatten_dict bounds) k)).length = 0
            then none else some _) = none
        rw [hnil₂]
        rfl
    · right
      have hnil₂ : (flatten_dict init₂).map Prod.fst ≠ [] := by
        intro h
        exact hnil (List.eq_nil_of_length_eq_zero
          (by rw [← hKperm.length_eq, h]; rfl))
      refine ⟨((flatten_dict init₁).map Prod.fst).map
          (fun k => bounds_for (flatten_dict bounds) k),
        ((flatten_dict init₂).map Prod.fst).map
          (fun k => bounds_for (flatten_dict bounds) k), ?_, ?_, ?_, ?_, ?_⟩
      · show (if (((flatten_dict init₁).map Prod.fst).map
            (fun k => bounds_for (flatten_dict bounds) k)).length = 0
            then none else some _) = some _
        rw [if_neg]
        intro h
        exact hnil (List.eq_nil_of_length_eq_zero (by simpa using h))
      · show (if (((flatten_dict init₂).map Prod.fst).map
            (fun k => bounds_for (flatten_dict bounds) k)).length = 0
            then none else some _) = some _
        rw [if_neg]
        intro h
        exact hnil₂ (List.eq_nil_of_length_eq_zero (by simpa using h))
      · rw [List.length_map]
      · rw [List.length_map]
      · rw [zip_map_self, zip_map_self]
        exact hKperm.map _
  · -- the two flat-vector adapters agree through the key correspondence
    intro x hxlen
    show (unflatten_dict (dictFromPairs
        (((flatten_dict init₂).map Prod.fst).zip x))).map ob
      = (unflatten_dict (dictFromPairs
        (((flatten_dict init₁).map Prod.fst).zip
          (((flatten_dict init₁).map Prod.fst).map
            (fun k => (dictGet (((flatten_dict init₂).map Prod.fst).zip x) k).getD 0))))).map ob
    have hzipx : ((flatten_dict init₂).map Prod.fst).zip x
        = ((flatten_dict init₂).map Prod.fst).map
          (fun k => (k, (dictGet (((flatten_dict init₂).map Prod.fst).zip x) k).getD 0)) :=
      (zip_eq_map_dictGet 0 hnodup₂ hxlen).symm
    have hzipxy : (((flatten_dict init₂).map Prod.fst).zip x).Perm
        (((flatten_dict init₁).map Prod.fst).zip
          (((flatten_dict init₁).map Prod.fst).map
            (fun k => (dictGet (((flatten_dict init₂).map Prod.fst).zip x) k).getD 0))) :=
      zip_perm_of_keys_perm _ _ _ x hKperm hzipx
    rcases unflatten_zip_perm_leafAt ((flatten_dict init₁).map Prod.fst)
      ((flatten_dict init₂).map Prod.fst)
      (((flatten_dict init₁).map Prod.fst).map
        (fun k => (dictGet (((flatten_dict init₂).map Prod.fst).zip x) k).getD 0))
      x hnodup₁ hKperm (by rw [List.length_map]) hxlen hind₁ hzipxy
      with ⟨d₁, d₂, h₁, h₂, hleaf⟩
    rw [h₁, h₂, Option.map_some', Option.map_some', hob d₁ d₂ hleaf]

/-- Witness for C7: a two-parameter mapping and its transposition, with a
trivially equivariant backend and an order-insensitive objective. -/
theorem fit_scipy_reordering_invariance_witness :
    ∃ d₁ d₂,
      (fit_scipy (fun _ x _ => ⟨x, true, ""⟩) (fun _ => 0)
          [("a", Nested.leaf 1), ("b", Nested.leaf 2)] []).optParams = some d₁ ∧
      (fit_scipy (fun _ x _ => ⟨x, true, ""⟩) (fun _ => 0)
          [("b", Nested.leaf 2), ("a", Nested.leaf 1)] []).optParams = some d₂ ∧
      ∀ r, leafAt d₂ r = leafAt d₁ r := by
  apply fit_scipy_reordering_invariance
    (fun _ x _ => ⟨x, true, ""⟩) (fun _ => 0)
    [("a", Nested.leaf 1), ("b", Nested.leaf 2)]
    [("b", Nested.leaf 2), ("a", Nested.leaf 1)] []
  · intro K₁ K₂ f₁ f₂ x₁ x₂ b₁ b₂ _ _ hlen₁ hlen₂ hzip _ _
    exact ⟨hlen₁, hlen₂, hzip⟩
  · intro d₁ d₂ _
    rfl
  · decide
  · exact List.Perm.swap _ _ _

end SCMEFitting
